import Mathlib

/-!
Verification of the `pygraph.py` graph library against its specification.

The `Graph` class is shallowly embedded: the Python `dict` mapping node
identities to insertion-ordered neighbour lists becomes an association list
`List (Node × List Node)` (Python dicts preserve insertion order), and the
`directed` flag becomes a `Bool`.  Node identities are modelled as `Nat`
(the node type only needs equality and a total order, which `get_edges`
uses for deduplication).
-/

namespace PyGraph

abbrev Node := Nat

/-- The `Graph` object: `directed` flag fixed at construction, and the
adjacency mapping `self.graph`, an insertion-ordered association list. -/
structure Graph where
  directed : Bool
  adj : List (Node × List Node)
  deriving Repr, DecidableEq

/-- `self.graph.get(node, [])`: the neighbour list of `node`, or `[]` when
`node` is not a key. -/
def adjList (g : Graph) (n : Node) : List Node :=
  ((g.adj.find? (fun p => p.1 == n)).map Prod.snd).getD []

/-- `node in self.graph`. -/
def hasNode (g : Graph) (n : Node) : Bool :=
  (g.adj.find? (fun p => p.1 == n)).isSome

/-- The keys of `self.graph`, in insertion order. -/
def keysOf (g : Graph) : List Node := g.adj.map Prod.fst

/-- `Graph.add_node`: insert `node` with an empty neighbour list if absent. -/
def add_node (g : Graph) (n : Node) : Graph :=
  if hasNode g n then g else ⟨g.directed, g.adj ++ [(n, [])]⟩

/-- `self.graph[k].append(v)`: append `v` to the neighbour list stored at
key `k` (every entry with that key; a dict has exactly one). -/
def appendNbr (l : List (Node × List Node)) (k v : Node) : List (Node × List Node) :=
  l.map (fun p => if p.1 == k then (p.1, p.2 ++ [v]) else p)

/-- `Graph.add_edge`: ensure both endpoints exist, append `b` to `a`'s list
if absent, and for undirected graphs symmetrically append `a` to `b`'s list
if absent there (the symmetric append is nested inside the first guard and
tests membership after the first append, exactly as in the source). -/
def add_edge (g : Graph) (a b : Node) : Graph :=
  let g1 := add_node (add_node g a) b
  if b ∈ adjList g1 a then g1
  else
    let g2 : Graph := ⟨g1.directed, appendNbr g1.adj a b⟩
    if ¬g1.directed ∧ a ∉ adjList g2 b then
      ⟨g2.directed, appendNbr g2.adj b a⟩
    else g2

/-- `Graph.get_nodes`. -/
def get_nodes (g : Graph) : List Node := keysOf g

/-- `Graph.get_edges`: one pair per stored adjacency entry, skipping, for
undirected graphs, entries whose neighbour is strictly below the node. -/
def get_edges (g : Graph) : List (Node × Node) :=
  (g.adj.map (fun p =>
    (p.2.filter (fun m => g.directed || !(m < p.1))).map (fun m => (p.1, m)))).flatten

/-- `Graph.get_neighbors`. -/
def get_neighbors (g : Graph) (n : Node) : List Node := adjList g n

/-- Every node identity mentioned anywhere in the adjacency structure:
the keys together with all members of neighbour lists.  Used only for
termination measures and fuel bounds. -/
def mentions (g : Graph) : Finset Node :=
  (keysOf g).toFinset ∪ ((g.adj.map Prod.snd).flatten).toFinset

lemma adjList_subset_mentions (g : Graph) (n : Node) :
    ∀ m ∈ adjList g n, m ∈ mentions g := by
  intro m hm
  rw [adjList] at hm
  rcases h : g.adj.find? (fun p => p.1 == n) with _ | p
  · rw [h] at hm; simp at hm
  · rw [h] at hm
    simp only [Option.map_some', Option.getD_some] at hm
    have hp : p ∈ g.adj := List.mem_of_find?_eq_some h
    unfold mentions
    refine Finset.mem_union_right _ ?_
    rw [List.mem_toFinset, List.mem_flatten]
    exact ⟨p.2, List.mem_map_of_mem Prod.snd hp, hm⟩

/-- Measure for the traversal loops: mentioned-or-stacked nodes not yet
visited. -/
def travMeasure (g : Graph) (stack visited : List Node) : Nat :=
  ((mentions g ∪ stack.toFinset) \ visited.toFinset).card

lemma travMeasure_tail_le (g : Graph) (n : Node) (rest visited : List Node) :
    travMeasure g rest visited ≤ travMeasure g (n :: rest) visited := by
  apply Finset.card_le_card
  intro x hx
  simp only [Finset.mem_sdiff, Finset.mem_union, List.mem_toFinset, List.toFinset_cons,
    Finset.mem_insert] at hx ⊢
  tauto

lemma travMeasure_visit_lt (g : Graph) (n : Node) (rest visited : List Node)
    (hn : n ∉ visited) :
    travMeasure g (adjList g n ++ rest) (visited ++ [n]) <
      travMeasure g (n :: rest) visited := by
  have hmem : n ∈ (mentions g ∪ (n :: rest).toFinset) \ visited.toFinset := by
    simp [hn]
  apply Finset.card_lt_card
  rw [Finset.ssubset_def]
  constructor
  · intro x hx
    simp only [Finset.mem_sdiff, Finset.mem_union, List.mem_toFinset, List.mem_append,
      List.mem_cons, List.mem_singleton, not_or] at hx ⊢
    obtain ⟨h1, h2, h3⟩ := hx
    refine ⟨?_, h2⟩
    rcases h1 with h | h | h
    · exact Or.inl h
    · exact Or.inl (adjList_subset_mentions g n x h)
    · exact Or.inr (Or.inr h)
  · intro hsub
    have hmm := hsub hmem
    simp only [Finset.mem_sdiff, List.mem_toFinset, List.mem_append,
      List.mem_singleton, not_or] at hmm
    exact hmm.2.2 trivial

lemma lex_of_le_of_lt {a b c d : Nat} (h1 : a ≤ c) (h2 : b < d) :
    Prod.Lex (· < ·) (· < ·) (a, b) (c, d) := by
  rcases lt_or_eq_of_le h1 with h | h
  · exact Prod.Lex.left _ _ h
  · subst h; exact Prod.Lex.right _ h2

/-- `Graph.dfs`'s explicit stack loop.  The stack is modelled with its top
at the head, so Python's `stack.extend(reversed(adj))` followed by
`stack.pop()` becomes prepending `adj` unreversed. -/
def dfsLoop (g : Graph) (stack visited : List Node) : List Node :=
  match stack with
  | [] => visited
  | n :: rest =>
    if n ∈ visited then dfsLoop g rest visited
    else dfsLoop g (adjList g n ++ rest) (visited ++ [n])
termination_by (travMeasure g stack visited, stack.length)
decreasing_by
  · exact lex_of_le_of_lt (travMeasure_tail_le g n rest visited) (Nat.lt_succ_self _)
  · exact Prod.Lex.left _ _ (travMeasure_visit_lt g n rest visited (by assumption))

/-- `Graph.dfs`. -/
def dfs (g : Graph) (start : Node) : List Node := dfsLoop g [start] []

/-- `Graph.bfs`'s queue loop (`queue.pop(0)` pops the head, neighbours are
appended at the tail). -/
def bfsLoop (g : Graph) (queue visited : List Node) : List Node :=
  match queue with
  | [] => visited
  | n :: rest =>
    if n ∈ visited then bfsLoop g rest visited
    else bfsLoop g (rest ++ adjList g n) (visited ++ [n])
termination_by (travMeasure g queue visited, queue.length)
decreasing_by
  · exact lex_of_le_of_lt (travMeasure_tail_le g n rest visited) (Nat.lt_succ_self _)
  · refine Prod.Lex.left _ _ ?_
    have h1 : travMeasure g (rest ++ adjList g n) (visited ++ [n]) =
        travMeasure g (adjList g n ++ rest) (visited ++ [n]) := by
      unfold travMeasure
      congr 1
      congr 1
      congr 1
      · ext x; simp [List.mem_toFinset, or_comm]
    rw [h1]
    exact travMeasure_visit_lt g n rest visited (by assumption)

/-- `Graph.bfs`. -/
def bfs (g : Graph) (start : Node) : List Node := bfsLoop g [start] []

/-! ### Shortest path -/

lemma findIdx_append_of_exists {α : Type} (p : α → Bool) (l l' : List α)
    (h : ∃ x ∈ l, p x = true) : (l ++ l').findIdx p = l.findIdx p := by
  induction l with
  | nil => simp at h
  | cons a t ih =>
    rcases h with ⟨x, hx, hpx⟩
    by_cases hpa : p a = true
    · simp [List.findIdx_cons, hpa]
    · rcases List.mem_cons.mp hx with rfl | hx'
      · exact absurd hpx hpa
      · have hpa' : p a = false := by
          cases hp : p a
          · rfl
          · exact absurd hp hpa
        simp only [List.cons_append, List.findIdx_cons, hpa', cond_false]
        rw [ih ⟨x, hx', hpx⟩]

lemma findIdx_append_of_forall {α : Type} (p : α → Bool) (l l' : List α)
    (h : ∀ x ∈ l, p x = false) : (l ++ l').findIdx p = l.length + l'.findIdx p := by
  induction l with
  | nil => simp
  | cons a t ih =>
    have hpa := h a (List.mem_cons_self a t)
    simp only [List.cons_append, List.findIdx_cons, hpa, cond_false, List.length_cons]
    rw [ih (fun x hx => h x (List.mem_cons_of_mem a hx))]
    omega

lemma findIdx_nil_eq {α : Type} (p : α → Bool) : ([] : List α).findIdx p = 0 := rfl

lemma findIdx_eq_length_of_forall {α : Type} (p : α → Bool) (l : List α)
    (h : ∀ x ∈ l, p x = false) : l.findIdx p = l.length := by
  induction l with
  | nil => simp
  | cons a t ih =>
    have hpa := h a (List.mem_cons_self a t)
    simp only [List.findIdx_cons, hpa, cond_false, List.length_cons]
    rw [ih (fun x hx => h x (List.mem_cons_of_mem a hx))]

/-- First measure for the `shortest_path` loop: mentioned-or-queued nodes
not yet marked visited. -/
def spMeasure1 (g : Graph) (q : List (Node × List Node)) (vis : Finset Node) : Nat :=
  ((mentions g ∪ (q.map Prod.fst).toFinset) \ vis).card

/-- Second measure: index of the first queue entry whose node is
unvisited (queue length when there is none). -/
def spMeasure2 (vis : Finset Node) (q : List (Node × List Node)) : Nat :=
  q.findIdx (fun e => decide (e.1 ∉ vis))

/-- One step of the queue: the entries appended while scanning `n`'s
neighbours. -/
def spAppend (g : Graph) (n : Node) (p : List Node) (vis : Finset Node) :
    List (Node × List Node) :=
  ((adjList g n).filter (fun m => decide (m ∉ insert n vis))).map (fun m => (m, p ++ [m]))

lemma spAppend_fst_mem (g : Graph) (n : Node) (p : List Node) (vis : Finset Node) :
    ∀ x ∈ (spAppend g n p vis).map Prod.fst, x ∈ mentions g ∧ x ∉ insert n vis := by
  intro x hx
  rcases List.mem_map.mp hx with ⟨e, he, hex⟩
  simp only [spAppend, List.mem_map, List.mem_filter] at he
  rcases he with ⟨m, ⟨hm1, hm2⟩, hme⟩
  subst hme
  subst hex
  exact ⟨adjList_subset_mentions g n m hm1, by simpa using hm2⟩

lemma spStep_subset (g : Graph) (n : Node) (p : List Node)
    (rest : List (Node × List Node)) (vis : Finset Node) :
    (mentions g ∪ ((rest ++ spAppend g n p vis).map Prod.fst).toFinset) \ (insert n vis) ⊆
      (mentions g ∪ (((n, p) :: rest).map Prod.fst).toFinset) \ vis := by
  intro x hx
  rw [Finset.mem_sdiff] at hx ⊢
  obtain ⟨h1, h2⟩ := hx
  have h2' : x ∉ vis := fun h => h2 (Finset.mem_insert_of_mem h)
  refine ⟨?_, h2'⟩
  rcases Finset.mem_union.mp h1 with h | h
  · exact Finset.mem_union_left _ h
  · rw [List.mem_toFinset, List.map_append, List.mem_append] at h
    rcases h with h | h
    · refine Finset.mem_union_right _ ?_
      rw [List.mem_toFinset]
      rcases List.mem_map.mp h with ⟨e, he, hex⟩
      exact List.mem_map.mpr ⟨e, List.mem_cons_of_mem _ he, hex⟩
    · exact Finset.mem_union_left _ (spAppend_fst_mem g n p vis x h).1

lemma spMeasure1_le (g : Graph) (n : Node) (p : List Node)
    (rest : List (Node × List Node)) (vis : Finset Node) :
    spMeasure1 g (rest ++ spAppend g n p vis) (insert n vis) ≤
      spMeasure1 g ((n, p) :: rest) vis :=
  Finset.card_le_card (spStep_subset g n p rest vis)

lemma spMeasure1_lt (g : Graph) (n : Node) (p : List Node)
    (rest : List (Node × List Node)) (vis : Finset Node) (hn : n ∉ vis) :
    spMeasure1 g (rest ++ spAppend g n p vis) (insert n vis) <
      spMeasure1 g ((n, p) :: rest) vis := by
  apply Finset.card_lt_card
  rw [Finset.ssubset_def]
  refine ⟨spStep_subset g n p rest vis, ?_⟩
  intro hsub'
  have hmem : n ∈ (mentions g ∪ (((n, p) :: rest).map Prod.fst).toFinset) \ vis := by
    simp [hn]
  have hmm := hsub' hmem
  rw [Finset.mem_sdiff] at hmm
  exact hmm.2 (Finset.mem_insert_self n vis)

lemma spMeasure2_lt (g : Graph) (n : Node) (p : List Node)
    (rest : List (Node × List Node)) (vis : Finset Node) (hn : n ∈ vis) :
    spMeasure2 (insert n vis) (rest ++ spAppend g n p vis) <
      spMeasure2 vis ((n, p) :: rest) := by
  have hins : insert n vis = vis := Finset.insert_eq_self.mpr hn
  rw [hins]
  have hfront : (fun (e : Node × List Node) => decide (e.1 ∉ vis)) (n, p) = false := by
    simp [hn]
  have hstep : spMeasure2 vis ((n, p) :: rest) =
      spMeasure2 vis rest + 1 := by
    simp only [spMeasure2, List.findIdx_cons, hfront, cond_false]
  rw [hstep]
  by_cases hex : ∃ e ∈ rest, (fun (e : Node × List Node) => decide (e.1 ∉ vis)) e = true
  · rw [spMeasure2, findIdx_append_of_exists _ _ _ hex]
    simp only [spMeasure2]
    omega
  · push_neg at hex
    have hall : ∀ e ∈ rest, (fun (e : Node × List Node) => decide (e.1 ∉ vis)) e = false := by
      intro e he
      cases h : (fun (e : Node × List Node) => decide (e.1 ∉ vis)) e
      · rfl
      · exact absurd h (hex e he)
    have hrest : spMeasure2 vis rest = rest.length :=
      findIdx_eq_length_of_forall _ rest hall
    rw [spMeasure2, findIdx_append_of_forall _ _ _ hall, hrest]
    rcases happ : spAppend g n p vis with _ | ⟨e, t⟩
    · simp [findIdx_nil_eq]
    · have he1 : e.1 ∉ vis := by
        have : e ∈ spAppend g n p vis := by rw [happ]; exact List.mem_cons_self e t
        simp only [spAppend, List.mem_map, List.mem_filter] at this
        rcases this with ⟨m, ⟨_, hm2⟩, hme⟩
        subst hme
        rw [hins] at hm2
        simpa using hm2
      have : (e :: t).findIdx (fun e => decide (e.1 ∉ vis)) = 0 := by
        simp [List.findIdx_cons, he1]
      rw [this]
      omega

/-- The BFS loop of `Graph.shortest_path`: entries carry the path so far,
the node at the head of the queue is marked visited (before its neighbour
scan, as in the source), and unvisited neighbours are enqueued with the
extended path. -/
def spLoop (g : Graph) (endN : Node) (q : List (Node × List Node)) (vis : Finset Node) :
    Option (List Node) :=
  match q with
  | [] => none
  | (n, p) :: rest =>
    if n = endN then some p
    else spLoop g endN (rest ++ spAppend g n p vis) (insert n vis)
termination_by (spMeasure1 g q vis, spMeasure2 vis q)
decreasing_by
  by_cases hn : n ∈ vis
  · exact lex_of_le_of_lt (spMeasure1_le g n p rest vis) (spMeasure2_lt g n p rest vis hn)
  · exact Prod.Lex.left _ _ (spMeasure1_lt g n p rest vis hn)

/-- `Graph.shortest_path`. -/
def shortest_path (g : Graph) (start endN : Node) : Option (List Node) :=
  if hasNode g start && hasNode g endN then spLoop g endN [(start, [start])] ∅
  else none

/-! ### Cycle detection

The recursive inner `dfs` functions of `_has_cycle_directed` and
`_has_cycle_undirected` are embedded with a fuel parameter bounding the
recursion depth; `visitND_isSome` below shows the chosen fuel is never
exhausted, so the embedding computes exactly what the unbounded Python
recursion computes. -/

/-- The `visited`/`rec_stack` pair of sets of `_has_cycle_directed`. -/
structure DState where
  vis : Finset Node
  stk : Finset Node
  deriving DecidableEq

/-- Fuel sufficient for any depth-first run: one more than the number of
mentioned nodes. -/
def fuelBound (g : Graph) : Nat := (mentions g).card + 1

mutual
/-- Inner `dfs(node)` of `_has_cycle_directed`: mark `node` visited and
on-stack, scan its neighbours, and pop it from the stack on a `False`
return (on `True` the Python function returns early, leaving the node on
the stack). -/
def visitND (g : Graph) : Nat → Node → DState → Option (Bool × DState)
  | 0, _, _ => none
  | f + 1, n, s =>
    match visitLD g f (adjList g n) ⟨insert n s.vis, insert n s.stk⟩ with
    | none => none
    | some (true, s2) => some (true, s2)
    | some (false, s2) => some (false, ⟨s2.vis, s2.stk.erase n⟩)
termination_by f _ _ => (f, 0)
decreasing_by
  exact Prod.Lex.left _ _ (Nat.lt_succ_self _)

/-- The neighbour loop of `_has_cycle_directed.dfs`: recurse into unvisited
neighbours, report a cycle on a visited neighbour that is on-stack. -/
def visitLD (g : Graph) : Nat → List Node → DState → Option (Bool × DState)
  | _, [], s => some (false, s)
  | f, m :: r, s =>
    if m ∉ s.vis then
      match visitND g f m s with
      | none => none
      | some (true, s2) => some (true, s2)
      | some (false, s2) => visitLD g f r s2
    else if m ∈ s.stk then some (true, s)
    else visitLD g f r s
termination_by f l _ => (f, l.length + 1)
decreasing_by
  · exact Prod.Lex.right _ (Nat.succ_pos _)
  · exact Prod.Lex.right _ (Nat.lt_succ_self _)
  · exact Prod.Lex.right _ (Nat.lt_succ_self _)
end

/-- The outer loop of `_has_cycle_directed` over all nodes. -/
def outerD (g : Graph) : List Node → DState → Bool
  | [], _ => false
  | k :: ks, s =>
    if k ∉ s.vis then
      match visitND g (fuelBound g) k s with
      | none => false
      | some (true, _) => true
      | some (false, s') => outerD g ks s'
    else outerD g ks s

/-- `Graph._has_cycle_directed`. -/
def hasCycleDirected (g : Graph) : Bool := outerD g (keysOf g) ⟨∅, ∅⟩

mutual
/-- Inner `dfs(node, parent)` of `_has_cycle_undirected`. -/
def visitNU (g : Graph) : Nat → Node → Option Node → Finset Node → Option (Bool × Finset Node)
  | 0, _, _, _ => none
  | f + 1, n, parent, vis => visitLU g f (adjList g n) n parent (insert n vis)
termination_by f _ _ _ => (f, 0)
decreasing_by
  exact Prod.Lex.left _ _ (Nat.lt_succ_self _)

/-- The neighbour loop of `_has_cycle_undirected.dfs`: recurse into
unvisited neighbours with the current node as parent, report a cycle on a
visited neighbour different from the parent. -/
def visitLU (g : Graph) : Nat → List Node → Node → Option Node → Finset Node →
    Option (Bool × Finset Node)
  | _, [], _, _, vis => some (false, vis)
  | f, m :: r, cur, parent, vis =>
    if m ∉ vis then
      match visitNU g f m (some cur) vis with
      | none => none
      | some (true, v2) => some (true, v2)
      | some (false, v2) => visitLU g f r cur parent v2
    else if some m ≠ parent then some (true, vis)
    else visitLU g f r cur parent vis
termination_by f l _ _ _ => (f, l.length + 1)
decreasing_by
  · exact Prod.Lex.right _ (Nat.succ_pos _)
  · exact Prod.Lex.right _ (Nat.lt_succ_self _)
  · exact Prod.Lex.right _ (Nat.lt_succ_self _)
end

/-- The outer loop of `_has_cycle_undirected` over all nodes, parent
`None`. -/
def outerU (g : Graph) : List Node → Finset Node → Bool
  | [], _ => false
  | k :: ks, vis =>
    if k ∉ vis then
      match visitNU g (fuelBound g) k none vis with
      | none => false
      | some (true, _) => true
      | some (false, v') => outerU g ks v'
    else outerU g ks vis

/-- `Graph._has_cycle_undirected`. -/
def hasCycleUndirected (g : Graph) : Bool := outerU g (keysOf g) ∅

/-- `Graph.has_cycle`. -/
def has_cycle (g : Graph) : Bool :=
  if !g.directed then hasCycleUndirected g else hasCycleDirected g

/-! ### Topological sort (Kahn's algorithm) -/

/-- The initial `in_degree` table: zero for every key, incremented once per
occurrence in a neighbour list, i.e. the occurrence count over all
neighbour lists.  (Python would raise a `KeyError` for a neighbour that is
not a key; graphs built through the API are closed, so the table is only
ever read at keys and this total-function model is faithful there.) -/
def indeg0 (g : Graph) : Node → Int :=
  fun v => ((g.adj.map Prod.snd).flatten.count v : Nat)

/-- The neighbour scan of one Kahn step: decrement each neighbour's
in-degree in turn, enqueueing a neighbour exactly when its count reaches
zero. -/
def stepNeighbors (l : List Node) (ind : Node → Int) (q : List Node) :
    (Node → Int) × List Node :=
  l.foldl (fun acc m =>
    let ind' : Node → Int := fun x => if x = m then acc.1 m - 1 else acc.1 x
    (ind', if ind' m = 0 then acc.2 ++ [m] else acc.2)) (ind, q)

/-- Termination weight for the Kahn loop: total positive in-degree over
all mentioned nodes. -/
def kahnWeight (g : Graph) (ind : Node → Int) : Nat :=
  ∑ v ∈ mentions g, (ind v).toNat

lemma stepNeighbors_fst_le (l : List Node) (ind : Node → Int) (q : List Node) :
    ∀ v, (stepNeighbors l ind q).1 v ≤ ind v := by
  induction l generalizing ind q with
  | nil => intro v; simp [stepNeighbors]
  | cons m t ih =>
    intro v
    have hstep : stepNeighbors (m :: t) ind q =
        stepNeighbors t (fun x => if x = m then ind m - 1 else ind x)
          (if (if m = m then ind m - 1 else ind m) = 0 then q ++ [m] else q) := rfl
    rw [hstep]
    refine le_trans (ih _ _ v) ?_
    by_cases hv : v = m
    · subst hv; simp
    · simp [hv]

lemma kahnWeight_mono (g : Graph) (ind ind' : Node → Int)
    (h : ∀ v, ind' v ≤ ind v) : kahnWeight g ind' ≤ kahnWeight g ind := by
  apply Finset.sum_le_sum
  intro v _
  exact Int.toNat_le_toNat (h v)

lemma stepNeighbors_snd_lt (g : Graph) (l : List Node) (ind : Node → Int) (q : List Node)
    (hl : ∀ m ∈ l, m ∈ mentions g)
    (hne : (stepNeighbors l ind q).2 ≠ q) :
    kahnWeight g (stepNeighbors l ind q).1 < kahnWeight g ind := by
  induction l generalizing ind q with
  | nil => exact absurd rfl hne
  | cons m t ih =>
    have hmem : m ∈ mentions g := hl m (List.mem_cons_self m t)
    have hstep : stepNeighbors (m :: t) ind q =
        stepNeighbors t (fun x => if x = m then ind m - 1 else ind x)
          (if (if m = m then ind m - 1 else ind m) = 0 then q ++ [m] else q) := rfl
    by_cases hz : ind m - 1 = 0
    · -- `m` is enqueued: its in-degree drops from 1 to 0, a strict decrease
      have hlt : kahnWeight g (fun x => if x = m then ind m - 1 else ind x) <
          kahnWeight g ind := by
        apply Finset.sum_lt_sum
        · intro v _
          by_cases hv : v = m
          · subst hv; simp
          · simp [hv]
        · refine ⟨m, hmem, ?_⟩
          simp
          omega
      rw [hstep]
      calc kahnWeight g (stepNeighbors t _ _).1
          ≤ kahnWeight g (fun x => if x = m then ind m - 1 else ind x) :=
            kahnWeight_mono g _ _ (stepNeighbors_fst_le t _ _)
        _ < kahnWeight g ind := hlt
    · -- `m` is not enqueued; the queue change comes from the tail
      rw [hstep] at hne ⊢
      have hq : (if (if m = m then ind m - 1 else ind m) = 0 then q ++ [m] else q) = q := by
        simp [hz]
      rw [hq] at hne ⊢
      have := ih (fun x => if x = m then ind m - 1 else ind x) q
        (fun x hx => hl x (List.mem_cons_of_mem m hx)) hne
      refine lt_of_lt_of_le this ?_
      apply kahnWeight_mono
      intro v
      by_cases hv : v = m
      · subst hv; simp
      · simp [hv]

/-- The Kahn queue loop of `topological_sort`: dequeue a node, append it
to the result, and scan its neighbours. -/
def kahnLoop (g : Graph) (q : List Node) (ind : Node → Int) (res : List Node) : List Node :=
  match q with
  | [] => res
  | n :: rest =>
    kahnLoop g (stepNeighbors (adjList g n) ind rest).2
      (stepNeighbors (adjList g n) ind rest).1 (res ++ [n])
termination_by (kahnWeight g ind, q.length)
decreasing_by
  by_cases hq : (stepNeighbors (adjList g n) ind rest).2 = rest
  · rw [hq]
    exact lex_of_le_of_lt
      (kahnWeight_mono g _ _ (stepNeighbors_fst_le (adjList g n) ind rest))
      (Nat.lt_succ_self _)
  · exact Prod.Lex.left _ _
      (stepNeighbors_snd_lt g (adjList g n) ind rest (adjList_subset_mentions g n) hq)

/-- `Graph.topological_sort`. -/
def topological_sort (g : Graph) : Option (List Node) :=
  if g.directed && has_cycle g then none
  else
    let res := kahnLoop g ((keysOf g).filter (fun v => indeg0 g v == 0)) (indeg0 g) []
    if res.length ≠ g.adj.length then none else some res

/-- `Graph.__str__`: one `"node -> n1, n2"` line per node, joined by
newlines. -/
def strOfGraph (g : Graph) : String :=
  String.intercalate "\n" (g.adj.map (fun p =>
    toString p.1 ++ " -> " ++ String.intercalate ", " (p.2.map toString)))

/-! ### Specification notions: edges, paths, cycles, reachable states -/

/-- There is an edge from `u` to `v`: `v` is stored in `u`'s neighbour
list. -/
abbrev EdgeRel (g : Graph) (u v : Node) : Prop := v ∈ adjList g u

/-- A non-empty list of nodes each adjacent to the next. -/
def IsPathList (g : Graph) (p : List Node) : Prop :=
  p ≠ [] ∧ p.Chain' (EdgeRel g)

/-- A path from `s` to `e`, inclusive. -/
def PathFromTo (g : Graph) (s e : Node) (p : List Node) : Prop :=
  IsPathList g p ∧ p.head? = some s ∧ p.getLast? = some e

/-- The graph contains a directed cycle: a closed edge walk of at least
one step. -/
def HasDirectedCycle (g : Graph) : Prop :=
  ∃ c : List Node, 2 ≤ c.length ∧ c.Chain' (EdgeRel g) ∧ c.head? = c.getLast?

/-- Graph states reachable through the public mutation API from a freshly
constructed graph. -/
inductive Built : Graph → Prop where
  | base (d : Bool) : Built ⟨d, []⟩
  | node {g : Graph} (n : Node) : Built g → Built (add_node g n)
  | edge {g : Graph} (a b : Node) : Built g → Built (add_edge g a b)

/-- Structural invariants of every reachable graph state: keys are unique,
neighbour lists are duplicate-free, every mentioned node is itself a key,
and undirected adjacency is symmetric (apart from self-loops). -/
structure WFG (g : Graph) : Prop where
  keysNodup : (keysOf g).Nodup
  listsNodup : ∀ n, (adjList g n).Nodup
  closed : ∀ n m, m ∈ adjList g n → hasNode g m = true
  ownerKey : ∀ n, adjList g n ≠ [] → hasNode g n = true
  symm : g.directed = false → ∀ a b, b ∈ adjList g a → a ≠ b → a ∈ adjList g b

/-! ### Association-list lemmas -/

lemma hasNode_iff_mem_keys (g : Graph) (n : Node) :
    hasNode g n = true ↔ n ∈ keysOf g := by
  rw [hasNode, List.find?_isSome]
  constructor
  · rintro ⟨p, hp, hpn⟩
    rw [keysOf, List.mem_map]
    exact ⟨p, hp, by simpa using hpn⟩
  · intro h
    rcases List.mem_map.mp h with ⟨p, hp, hpn⟩
    exact ⟨p, hp, by simp [hpn]⟩

lemma hasNode_false_iff (g : Graph) (n : Node) :
    hasNode g n = false ↔ n ∉ keysOf g := by
  rw [← hasNode_iff_mem_keys]
  cases h : hasNode g n <;> simp

lemma adjList_eq_nil_of_not_hasNode (g : Graph) (n : Node)
    (h : hasNode g n = false) : adjList g n = [] := by
  rw [hasNode] at h
  rw [adjList]
  rcases hf : g.adj.find? (fun p => p.1 == n) with _ | p
  · simp [hf]
  · rw [hf] at h; simp at h

lemma hasNode_of_adjList_ne_nil (g : Graph) (n : Node)
    (h : adjList g n ≠ []) : hasNode g n = true := by
  cases hh : hasNode g n
  · exact absurd (adjList_eq_nil_of_not_hasNode g n hh) h
  · rfl

/-- The `directed` flag never changes. -/
lemma directed_add_node (g : Graph) (n : Node) :
    (add_node g n).directed = g.directed := by
  rw [add_node]; split <;> rfl

lemma directed_add_edge (g : Graph) (a b : Node) :
    (add_edge g a b).directed = g.directed := by
  simp only [add_edge]
  split
  · rw [directed_add_node, directed_add_node]
  · split <;> simp [directed_add_node]

lemma find?_singleton_entry (k n : Node) :
    ([(k, ([] : List Node))].find? (fun p => p.1 == n)) =
      if k = n then some (k, []) else none := by
  by_cases hkn : k = n
  · subst hkn; simp [List.find?]
  · have hb : (k == n) = false := by simp [hkn]
    simp [List.find?, hb, hkn]

lemma adjList_add_node (g : Graph) (k n : Node) :
    adjList (add_node g k) n = adjList g n := by
  by_cases h : hasNode g k
  · rw [add_node, if_pos h]
  · rw [add_node, if_neg h]
    show adjList ⟨g.directed, g.adj ++ [(k, [])]⟩ n = adjList g n
    rw [adjList, adjList]
    show ((((g.adj ++ [(k, [])]).find? (fun (p : Node × List Node) => p.1 == n)).map Prod.snd).getD []) = _
    rw [List.find?_append, find?_singleton_entry]
    rcases hf : g.adj.find? (fun p => p.1 == n) with _ | p
    · rw [hf, Option.none_or]
      by_cases hkn : k = n <;> simp [hkn]
    · rw [hf]
      rfl

lemma hasNode_add_node (g : Graph) (k n : Node) :
    hasNode (add_node g k) n = (hasNode g n || n == k) := by
  by_cases h : hasNode g k
  · rw [add_node, if_pos h]
    by_cases hnk : n = k
    · subst hnk; simp [h]
    · simp [hnk]
  · rw [add_node, if_neg h]
    show ((g.adj ++ [(k, [])]).find? (fun (p : Node × List Node) => p.1 == n)).isSome = _
    rw [List.find?_append, find?_singleton_entry, Option.isSome_or, hasNode]
    by_cases hkn : k = n
    · subst hkn; simp
    · have hnk : n ≠ k := fun hh => hkn hh.symm
      simp [hkn, hnk]

lemma keysOf_add_node (g : Graph) (k : Node) :
    keysOf (add_node g k) = if hasNode g k then keysOf g else keysOf g ++ [k] := by
  by_cases h : hasNode g k
  · rw [add_node, if_pos h, if_pos h]
  · rw [add_node, if_neg h, if_neg h]
    show (g.adj ++ [(k, [])]).map Prod.fst = _
    simp [keysOf]

lemma keysOf_appendNbr (d : Bool) (l : List (Node × List Node)) (k v : Node) :
    keysOf ⟨d, appendNbr l k v⟩ = l.map Prod.fst := by
  rw [keysOf, appendNbr]
  show (l.map _).map Prod.fst = _
  rw [List.map_map]
  apply List.map_congr_left
  intro p _
  by_cases h : p.1 = k <;> simp [h]

lemma find?_appendNbr (l : List (Node × List Node)) (k v n : Node) :
    (appendNbr l k v).find? (fun p => p.1 == n) =
      (l.find? (fun p => p.1 == n)).map
        (fun p => if p.1 == k then (p.1, p.2 ++ [v]) else p) := by
  rw [appendNbr, List.find?_map]
  have hpred : ((fun (p : Node × List Node) => p.1 == n) ∘
      (fun p => if p.1 == k then (p.1, p.2 ++ [v]) else p)) =
      (fun (p : Node × List Node) => p.1 == n) := by
    funext p
    by_cases h : p.1 = k <;> simp [h]
  rw [hpred]

lemma adjList_appendNbr_self (g : Graph) (d : Bool) (k v : Node)
    (hk : hasNode g k = true) :
    adjList ⟨d, appendNbr g.adj k v⟩ k = adjList g k ++ [v] := by
  rw [adjList, adjList]
  show ((((appendNbr g.adj k v).find? (fun p => p.1 == k)).map Prod.snd).getD []) = _
  rw [find?_appendNbr]
  rcases hf : g.adj.find? (fun p => p.1 == k) with _ | p
  · rw [hasNode, hf] at hk; exact Bool.noConfusion hk
  · have hpk : p.1 = k := by
      have := List.find?_some hf
      simpa using this
    rw [hf]
    simp [hpk]

lemma adjList_appendNbr_ne (g : Graph) (d : Bool) (k v n : Node) (h : n ≠ k) :
    adjList ⟨d, appendNbr g.adj k v⟩ n = adjList g n := by
  rw [adjList, adjList]
  show ((((appendNbr g.adj k v).find? (fun p => p.1 == n)).map Prod.snd).getD []) = _
  rw [find?_appendNbr]
  rcases hf : g.adj.find? (fun p => p.1 == n) with _ | p
  · rw [hf]; simp
  · have hpn : p.1 = n := by
      have := List.find?_some hf
      simpa using this
    have hb : p.1 ≠ k := by rw [hpn]; exact h
    rw [hf]
    simp [hb]

lemma hasNode_appendNbr (g : Graph) (d : Bool) (k v n : Node) :
    hasNode ⟨d, appendNbr g.adj k v⟩ n = hasNode g n := by
  rw [hasNode, hasNode]
  show ((appendNbr g.adj k v).find? (fun p => p.1 == n)).isSome = _
  rw [find?_appendNbr]
  rcases hf : g.adj.find? (fun p => p.1 == n) with _ | p <;> rw [hf] <;> simp

/-! ### `add_edge` characterisation -/

/-- The graph after `add_edge`'s two `add_node` calls. -/
def gAug1 (g : Graph) (a b : Node) : Graph := add_node (add_node g a) b

/-- The graph after appending `b` to `a`'s list. -/
def gAug2 (g : Graph) (a b : Node) : Graph :=
  ⟨(gAug1 g a b).directed, appendNbr (gAug1 g a b).adj a b⟩

/-- The graph after the symmetric append of `a` to `b`'s list. -/
def gAug3 (g : Graph) (a b : Node) : Graph :=
  ⟨(gAug2 g a b).directed, appendNbr (gAug2 g a b).adj b a⟩

lemma add_edge_eq (g : Graph) (a b : Node) :
    add_edge g a b =
      if b ∈ adjList (gAug1 g a b) a then gAug1 g a b
      else if ¬(gAug1 g a b).directed ∧ a ∉ adjList (gAug2 g a b) b then gAug3 g a b
      else gAug2 g a b := rfl

lemma adjList_gAug1 (g : Graph) (a b n : Node) :
    adjList (gAug1 g a b) n = adjList g n := by
  rw [gAug1, adjList_add_node, adjList_add_node]

lemma directed_gAug1 (g : Graph) (a b : Node) :
    (gAug1 g a b).directed = g.directed := by
  rw [gAug1, directed_add_node, directed_add_node]

lemma hasNode_gAug1 (g : Graph) (a b n : Node) :
    hasNode (gAug1 g a b) n = ((hasNode g n || n == a) || n == b) := by
  rw [gAug1, hasNode_add_node, hasNode_add_node]

lemma hasNode_gAug1_left (g : Graph) (a b : Node) :
    hasNode (gAug1 g a b) a = true := by
  rw [hasNode_gAug1]; simp

lemma hasNode_gAug1_right (g : Graph) (a b : Node) :
    hasNode (gAug1 g a b) b = true := by
  rw [hasNode_gAug1]; simp

lemma adjList_gAug2 (g : Graph) (a b n : Node) :
    adjList (gAug2 g a b) n =
      if n = a then adjList g a ++ [b] else adjList g n := by
  rw [gAug2]
  by_cases h : n = a
  · rw [if_pos h, h, adjList_appendNbr_self _ _ _ _ (hasNode_gAug1_left g a b),
      adjList_gAug1]
  · rw [if_neg h, adjList_appendNbr_ne _ _ _ _ _ h, adjList_gAug1]

lemma hasNode_gAug2 (g : Graph) (a b n : Node) :
    hasNode (gAug2 g a b) n = hasNode (gAug1 g a b) n := by
  rw [gAug2, hasNode_appendNbr]

lemma adjList_gAug3 (g : Graph) (a b n : Node) :
    adjList (gAug3 g a b) n =
      if n = b then adjList (gAug2 g a b) b ++ [a] else adjList (gAug2 g a b) n := by
  rw [gAug3]
  by_cases h : n = b
  · subst h
    rw [if_pos rfl, adjList_appendNbr_self]
    rw [hasNode_gAug2, hasNode_gAug1_right]
  · rw [if_neg h, adjList_appendNbr_ne _ _ _ _ _ h]

lemma hasNode_gAug3 (g : Graph) (a b n : Node) :
    hasNode (gAug3 g a b) n = hasNode (gAug1 g a b) n := by
  rw [gAug3, hasNode_appendNbr, hasNode_gAug2]

lemma hasNode_add_edge (g : Graph) (a b n : Node) :
    hasNode (add_edge g a b) n = ((hasNode g n || n == a) || n == b) := by
  rw [add_edge_eq]
  split_ifs
  · rw [hasNode_gAug1]
  · rw [hasNode_gAug3, hasNode_gAug1]
  · rw [hasNode_gAug2, hasNode_gAug1]

lemma keysOf_gAug2 (g : Graph) (a b : Node) :
    keysOf (gAug2 g a b) = keysOf (gAug1 g a b) := by
  rw [gAug2, keysOf_appendNbr, keysOf]

lemma keysOf_gAug3 (g : Graph) (a b : Node) :
    keysOf (gAug3 g a b) = keysOf (gAug1 g a b) := by
  rw [gAug3, keysOf_appendNbr, ← keysOf_gAug2, keysOf]

lemma keysOf_add_edge (g : Graph) (a b : Node) :
    keysOf (add_edge g a b) = keysOf (gAug1 g a b) := by
  rw [add_edge_eq]
  split_ifs
  · rfl
  · rw [keysOf_gAug3]
  · rw [keysOf_gAug2]

/-- `add_edge` only ever appends to neighbour lists. -/
lemma adjList_add_edge_ext (g : Graph) (a b n : Node) :
    ∃ t, adjList (add_edge g a b) n = adjList g n ++ t := by
  rw [add_edge_eq]
  split_ifs
  · exact ⟨[], by rw [adjList_gAug1, List.append_nil]⟩
  · rw [adjList_gAug3, adjList_gAug2, adjList_gAug2]
    by_cases hnb : n = b
    · subst hnb
      rw [if_pos rfl]
      by_cases hna : n = a
      · subst hna
        rw [if_pos rfl]
        exact ⟨[n] ++ [n], by rw [List.append_assoc]⟩
      · rw [if_neg hna]
        exact ⟨[a], rfl⟩
    · rw [if_neg hnb]
      by_cases hna : n = a
      · subst hna
        rw [if_pos rfl]
        exact ⟨[b], rfl⟩
      · rw [if_neg hna]
        exact ⟨[], by rw [List.append_nil]⟩
  · rw [adjList_gAug2]
    by_cases hna : n = a
    · subst hna
      rw [if_pos rfl]
      exact ⟨[b], rfl⟩
    · rw [if_neg hna]
      exact ⟨[], by rw [List.append_nil]⟩

lemma mem_adjList_add_edge (g : Graph) (a b : Node) :
    b ∈ adjList (add_edge g a b) a := by
  rw [add_edge_eq]
  split_ifs with h1 h2
  · rw [adjList_gAug1]
    rw [adjList_gAug1] at h1
    exact h1
  · rw [adjList_gAug3]
    by_cases hab : a = b
    · rw [if_pos hab, adjList_gAug2, if_pos hab.symm]
      simp
    · rw [if_neg hab, adjList_gAug2, if_pos rfl]
      simp
  · rw [adjList_gAug2, if_pos rfl]
    simp

/-! ### Invariants of reachable graphs -/

lemma nodup_append_single {l : List Node} {x : Node} (h : l.Nodup) (hx : x ∉ l) :
    (l ++ [x]).Nodup := by
  simp [List.nodup_append, h, hx]

lemma adjList_empty (d : Bool) (n : Node) : adjList ⟨d, []⟩ n = [] := rfl

lemma WFG_empty (d : Bool) : WFG ⟨d, []⟩ where
  keysNodup := by simp [keysOf]
  listsNodup := fun n => by rw [adjList_empty]; exact List.nodup_nil
  closed := fun n m hm => by rw [adjList_empty] at hm; cases hm
  ownerKey := fun n hm => absurd (adjList_empty d n) hm
  symm := fun _ a b hm => by rw [adjList_empty] at hm; cases hm

lemma WFG_add_node {g : Graph} (h : WFG g) (k : Node) : WFG (add_node g k) where
  keysNodup := by
    rw [keysOf_add_node]
    by_cases hk : hasNode g k
    · rw [if_pos hk]; exact h.keysNodup
    · rw [if_neg hk]
      refine nodup_append_single h.keysNodup ?_
      exact (hasNode_false_iff g k).mp (by cases hh : hasNode g k; rfl; exact absurd hh hk)
  listsNodup := fun n => by rw [adjList_add_node]; exact h.listsNodup n
  closed := fun n m hm => by
    rw [adjList_add_node] at hm
    rw [hasNode_add_node, h.closed n m hm, Bool.true_or]
  ownerKey := fun n hm => by
    rw [adjList_add_node] at hm
    rw [hasNode_add_node, h.ownerKey n hm, Bool.true_or]
  symm := fun hd a b hm hab => by
    rw [adjList_add_node] at hm ⊢
    rw [directed_add_node] at hd
    exact h.symm hd a b hm hab

lemma WFG_add_edge {g : Graph} (h : WFG g) (a b : Node) : WFG (add_edge g a b) := by
  have hg1 : WFG (gAug1 g a b) := WFG_add_node (WFG_add_node h a) b
  constructor
  case keysNodup =>
    rw [keysOf_add_edge]
    exact hg1.keysNodup
  case listsNodup =>
    intro n
    rw [add_edge_eq]
    split_ifs with h1 h2
    · rw [adjList_gAug1]; exact h.listsNodup n
    · -- both appends happened: a ≠ b, b ∉ g[a], a ∉ g[b]
      rw [adjList_gAug1] at h1
      have hab : a ≠ b := by
        intro hh
        subst hh
        exact h2.2 (by rw [adjList_gAug2, if_pos rfl]; simp)
      have hnab : a ∉ adjList g b := by
        intro hmem
        exact h2.2 (by rw [adjList_gAug2, if_neg (fun hh => hab hh.symm)]; exact hmem)
      rw [adjList_gAug3]
      by_cases hnb : n = b
      · rw [if_pos hnb, adjList_gAug2, if_neg (fun hh : b = a => hab hh.symm)]
        exact nodup_append_single (h.listsNodup b) hnab
      · rw [if_neg hnb, adjList_gAug2]
        by_cases hna : n = a
        · rw [if_pos hna]
          exact nodup_append_single (h.listsNodup a) h1
        · rw [if_neg hna]; exact h.listsNodup n
    · rw [adjList_gAug1] at h1
      rw [adjList_gAug2]
      by_cases hna : n = a
      · rw [if_pos hna]
        exact nodup_append_single (h.listsNodup a) h1
      · rw [if_neg hna]; exact h.listsNodup n
  case closed =>
    intro n m hm
    rw [hasNode_add_edge]
    rw [add_edge_eq] at hm
    split_ifs at hm with h1 h2
    · rw [adjList_gAug1] at hm
      rw [h.closed n m hm]; simp
    · rw [adjList_gAug3] at hm
      by_cases hnb : n = b
      · rw [if_pos hnb, adjList_gAug2] at hm
        rcases List.mem_append.mp hm with hm' | hm'
        · split_ifs at hm' with hba
          · rcases List.mem_append.mp hm' with hm2 | hm2
            · rw [h.closed a m hm2]; simp
            · rw [List.mem_singleton] at hm2; subst hm2; simp
          · rw [h.closed b m hm']; simp
        · rw [List.mem_singleton] at hm'; subst hm'; simp
      · rw [if_neg hnb, adjList_gAug2] at hm
        split_ifs at hm with hna
        · rcases List.mem_append.mp hm with hm' | hm'
          · rw [h.closed a m hm']; simp
          · rw [List.mem_singleton] at hm'; subst hm'; simp
        · rw [h.closed n m hm]; simp
    · rw [adjList_gAug2] at hm
      split_ifs at hm with hna
      · rcases List.mem_append.mp hm with hm' | hm'
        · rw [h.closed a m hm']; simp
        · rw [List.mem_singleton] at hm'; subst hm'; simp
      · rw [h.closed n m hm]; simp
  case ownerKey =>
    intro n hm
    rw [hasNode_add_edge]
    rw [add_edge_eq] at hm
    split_ifs at hm with h1 h2
    · rw [adjList_gAug1] at hm
      rw [h.ownerKey n hm]; simp
    · rw [adjList_gAug3] at hm
      by_cases hnb : n = b
      · subst hnb; simp
      · rw [if_neg hnb, adjList_gAug2] at hm
        by_cases hna : n = a
        · subst hna; simp
        · rw [if_neg hna] at hm
          rw [h.ownerKey n hm]; simp
    · rw [adjList_gAug2] at hm
      by_cases hna : n = a
      · subst hna; simp
      · rw [if_neg hna] at hm
        rw [h.ownerKey n hm]; simp
  case symm =>
    intro hd x y hm hxy
    rw [directed_add_edge] at hd
    rw [add_edge_eq] at hm ⊢
    split_ifs at hm ⊢ with h1 h2
    · rw [adjList_gAug1] at hm ⊢
      exact h.symm hd x y hm hxy
    · -- gAug3: both lists extended
      rw [adjList_gAug1] at h1
      have hab : a ≠ b := by
        intro hh
        subst hh
        exact h2.2 (by rw [adjList_gAug2, if_pos rfl]; simp)
      have hnab : a ∉ adjList g b := by
        intro hmem
        exact h2.2 (by rw [adjList_gAug2, if_neg (fun hh : b = a => hab hh.symm)]; exact hmem)
      have hlist : ∀ z, adjList (gAug3 g a b) z =
          if z = b then adjList g b ++ [a]
          else if z = a then adjList g a ++ [b] else adjList g z := by
        intro z
        rw [adjList_gAug3]
        by_cases hzb : z = b
        · rw [if_pos hzb, if_pos hzb, adjList_gAug2,
            if_neg (fun hh : b = a => hab hh.symm)]
        · rw [if_neg hzb, if_neg hzb, adjList_gAug2]
      rw [hlist] at hm
      rw [hlist]
      by_cases hxb : x = b
      · rw [if_pos hxb] at hm
        have hby : b ≠ y := hxb ▸ hxy
        rcases List.mem_append.mp hm with hm' | hm'
        · -- y was already a neighbour of b
          have hsy : b ∈ adjList g y := h.symm hd b y hm' hby
          by_cases hyb : y = b
          · exact absurd (hxb.trans hyb.symm) hxy
          · rw [if_neg hyb]
            by_cases hya : y = a
            · rw [if_pos hya]
              exact List.mem_append_right _ (by rw [hxb]; simp)
            · rw [if_neg hya]
              rw [hxb]
              exact hsy
        · -- the appended neighbour: y = a
          rw [List.mem_singleton] at hm'
          subst hm'
          rw [if_neg (fun hh : y = b => hab hh), if_pos rfl]
          exact List.mem_append_right _ (by rw [hxb]; simp)
      · rw [if_neg hxb] at hm
        by_cases hxa : x = a
        · rw [if_pos hxa] at hm
          have hay : a ≠ y := hxa ▸ hxy
          rcases List.mem_append.mp hm with hm' | hm'
          · have hsy : a ∈ adjList g y := h.symm hd a y hm' hay
            by_cases hyb : y = b
            · rw [if_pos hyb]
              exact List.mem_append_right _ (by rw [hxa]; simp)
            · rw [if_neg hyb]
              by_cases hya : y = a
              · exact absurd (hxa.trans hya.symm) hxy
              · rw [if_neg hya]
                rw [hxa]
                exact hsy
          · rw [List.mem_singleton] at hm'
            subst hm'
            rw [if_pos rfl]
            exact List.mem_append_right _ (by rw [hxa]; simp)
        · -- x untouched
          rw [if_neg hxa] at hm
          have hsy : x ∈ adjList g y := h.symm hd x y hm hxy
          by_cases hyb : y = b
          · rw [if_pos hyb]
            exact List.mem_append_left _ (hyb ▸ hsy)
          · rw [if_neg hyb]
            by_cases hya : y = a
            · rw [if_pos hya]
              exact List.mem_append_left _ (hya ▸ hsy)
            · rw [if_neg hya]
              exact hsy
    · -- gAug2: only a's list extended, and a is already a neighbour of b
      rw [adjList_gAug1] at h1
      rw [adjList_gAug2] at hm
      rw [adjList_gAug2]
      push_neg at h2
      have hcond : a ∈ adjList (gAug2 g a b) b := by
        rcases Classical.em ((gAug1 g a b).directed = true) with hdir | hdir
        · rw [directed_gAug1, hd] at hdir; exact Bool.noConfusion hdir
        · exact h2 hdir
      by_cases hxa : x = a
      · rw [if_pos hxa] at hm
        have hay : a ≠ y := hxa ▸ hxy
        rcases List.mem_append.mp hm with hm' | hm'
        · have hsy : a ∈ adjList g y := h.symm hd a y hm' hay
          by_cases hya : y = a
          · exact absurd (hxa.trans hya.symm) hxy
          · rw [if_neg hya]
            rw [hxa]
            exact hsy
        · -- y = b, use the branch condition
          rw [List.mem_singleton] at hm'
          subst hm'
          have habne : a ≠ y := hay
          rw [adjList_gAug2, if_neg (fun hh : y = a => habne hh.symm)] at hcond
          rw [if_neg (fun hh : y = a => habne hh.symm), hxa]
          exact hcond
      · rw [if_neg hxa] at hm
        have hsy : x ∈ adjList g y := h.symm hd x y hm hxy
        by_cases hya : y = a
        · rw [if_pos hya]
          exact List.mem_append_left _ (hya ▸ hsy)
        · rw [if_neg hya]
          exact hsy

/-- Every reachable graph state satisfies the structural invariants. -/
theorem wfg_of_built {g : Graph} (h : Built g) : WFG g := by
  induction h with
  | base d => exact WFG_empty d
  | node n _ ih => exact WFG_add_node ih n
  | edge a b _ ih => exact WFG_add_edge ih a b

/-! ### State-transformer forms of the queries

None of the query methods contains an assignment to `self.graph` or
`self.directed`; every access is a read (`self.graph.get`, iteration,
membership tests).  Translated as transformers of the `Graph` state they
therefore carry the state through unchanged. -/

def get_nodesImp (g : Graph) : List Node × Graph := (get_nodes g, g)

def get_edgesImp (g : Graph) : List (Node × Node) × Graph := (get_edges g, g)

def get_neighborsImp (g : Graph) (n : Node) : List Node × Graph := (get_neighbors g n, g)

def dfsImp (g : Graph) (s : Node) : List Node × Graph := (dfs g s, g)

def bfsImp (g : Graph) (s : Node) : List Node × Graph := (bfs g s, g)

def shortest_pathImp (g : Graph) (s e : Node) : Option (List Node) × Graph :=
  (shortest_path g s e, g)

def has_cycleImp (g : Graph) : Bool × Graph := (has_cycle g, g)

def topological_sortImp (g : Graph) : Option (List Node) × Graph := (topological_sort g, g)

def strOfGraphImp (g : Graph) : String × Graph := (strOfGraph g, g)

/-! ### Claim C3: undirected symmetry -/

lemma add_node_of_hasNode {g : Graph} {n : Node} (h : hasNode g n = true) :
    add_node g n = g := by
  rw [add_node, if_pos h]

lemma mem_adjList_add_edge_symm {g : Graph} (hw : WFG g) (hd : g.directed = false)
    (a b : Node) : a ∈ adjList (add_edge g a b) b := by
  have hw' : WFG (add_edge g a b) := WFG_add_edge hw a b
  have hd' : (add_edge g a b).directed = false := by rw [directed_add_edge]; exact hd
  by_cases hab : a = b
  · have := mem_adjList_add_edge g a b
    rw [hab] at this ⊢
    exact this
  · exact hw'.symm hd' a b (mem_adjList_add_edge g a b) hab

/-- C3: on every reachable undirected graph, adjacency is symmetric apart
from self-loops; after `add_edge a b` both directions are present; and a
self-loop occupies exactly one slot of its node's list. -/
theorem undirected_symmetry_invariant (g : Graph) (hb : Built g)
    (hd : g.directed = false) :
    (∀ a b, b ∈ get_neighbors g a → a ≠ b → a ∈ get_neighbors g b) ∧
    (∀ a b, b ∈ get_neighbors (add_edge g a b) a ∧
      a ∈ get_neighbors (add_edge g a b) b) ∧
    (∀ a, a ∈ get_neighbors g a → (get_neighbors g a).count a = 1) := by
  have hw := wfg_of_built hb
  refine ⟨?_, ?_, ?_⟩
  · intro a b hm hab
    exact hw.symm hd a b hm hab
  · intro a b
    exact ⟨mem_adjList_add_edge g a b, mem_adjList_add_edge_symm hw hd a b⟩
  · intro a hm
    exact List.count_eq_one_of_mem (hw.listsNodup a) hm

theorem undirected_symmetry_invariant_witness :
    1 ∈ get_neighbors (add_edge (add_edge ⟨false, []⟩ 2 3) 0 1) 0 ∧
    0 ∈ get_neighbors (add_edge (add_edge ⟨false, []⟩ 2 3) 0 1) 1 :=
  (undirected_symmetry_invariant (add_edge ⟨false, []⟩ 2 3)
    (Built.edge 2 3 (Built.base false)) (by decide)).2.1 0 1

/-! ### Claim C4: idempotence of `add_edge` -/

lemma add_edge_idem (g : Graph) (a b : Node) :
    add_edge (add_edge g a b) a b = add_edge g a b := by
  have hna : hasNode (add_edge g a b) a = true := by
    rw [hasNode_add_edge]; simp
  have hnb : hasNode (add_edge g a b) b = true := by
    rw [hasNode_add_edge]; simp
  have hg1 : gAug1 (add_edge g a b) a b = add_edge g a b := by
    rw [gAug1, add_node_of_hasNode hna, add_node_of_hasNode hnb]
  rw [add_edge_eq, hg1, if_pos (mem_adjList_add_edge g a b)]

/-- C4: calling `add_edge a b` twice yields the same state as calling it
once (for arbitrary states), and neighbour lists of reachable graphs never
contain duplicates. -/
theorem add_edge_idempotent :
    (∀ (g : Graph) (a b : Node), add_edge (add_edge g a b) a b = add_edge g a b) ∧
    (∀ (g : Graph), Built g → ∀ n, (get_neighbors g n).Nodup) :=
  ⟨add_edge_idem, fun _ hb n => (wfg_of_built hb).listsNodup n⟩

theorem add_edge_idempotent_witness :
    add_edge (add_edge (⟨true, []⟩ : Graph) 0 1) 0 1 = add_edge ⟨true, []⟩ 0 1 ∧
    (get_neighbors (add_edge ⟨true, []⟩ 0 1) 0).Nodup :=
  ⟨add_edge_idempotent.1 ⟨true, []⟩ 0 1,
    add_edge_idempotent.2 (add_edge ⟨true, []⟩ 0 1) (Built.edge 0 1 (Built.base true)) 0⟩

/-! ### Claim C9: unknown start node in dfs/bfs -/

lemma dfs_unknown (g : Graph) (s : Node) (h : hasNode g s = false) :
    dfs g s = [s] := by
  have hadj : adjList g s = [] := adjList_eq_nil_of_not_hasNode g s h
  simp [dfs, dfsLoop, hadj]

lemma bfs_unknown (g : Graph) (s : Node) (h : hasNode g s = false) :
    bfs g s = [s] := by
  have hadj : adjList g s = [] := adjList_eq_nil_of_not_hasNode g s h
  simp [bfs, bfsLoop, hadj]

/-- C9: an unknown `start` makes `dfs` and `bfs` return the singleton
`[start]`, with the graph state untouched. -/
theorem traversal_unknown_start (g : Graph) (s : Node) (h : hasNode g s = false) :
    (dfsImp g s).1 = [s] ∧ (dfsImp g s).2 = g ∧
    (bfsImp g s).1 = [s] ∧ (bfsImp g s).2 = g :=
  ⟨dfs_unknown g s h, rfl, bfs_unknown g s h, rfl⟩

theorem traversal_unknown_start_witness :
    (dfsImp ⟨true, [(0, [1]), (1, [])]⟩ 5).1 = [5] ∧
    (dfsImp ⟨true, [(0, [1]), (1, [])]⟩ 5).2 = ⟨true, [(0, [1]), (1, [])]⟩ ∧
    (bfsImp ⟨true, [(0, [1]), (1, [])]⟩ 5).1 = [5] ∧
    (bfsImp ⟨true, [(0, [1]), (1, [])]⟩ 5).2 = ⟨true, [(0, [1]), (1, [])]⟩ :=
  traversal_unknown_start ⟨true, [(0, [1]), (1, [])]⟩ 5 (by decide)

/-! ### Claim C10: queries do not modify the graph -/

/-- C10: every non-mutating operation leaves the adjacency mapping and the
directed flag exactly as they were, for all graphs and arguments. -/
theorem queries_pure (g : Graph) (n s e : Node) :
    (get_nodesImp g).2 = g ∧ (get_edgesImp g).2 = g ∧
    (get_neighborsImp g n).2 = g ∧ (dfsImp g s).2 = g ∧ (bfsImp g s).2 = g ∧
    (shortest_pathImp g s e).2 = g ∧ (has_cycleImp g).2 = g ∧
    (topological_sortImp g).2 = g ∧ (strOfGraphImp g).2 = g :=
  ⟨rfl, rfl, rfl, rfl, rfl, rfl, rfl, rfl, rfl⟩

/-! ### Claim C6: `get_edges` on undirected graphs -/

lemma find?_eq_of_mem_nodup {l : List (Node × List Node)}
    (hnd : (l.map Prod.fst).Nodup) {p : Node × List Node} (hp : p ∈ l) :
    l.find? (fun q => q.1 == p.1) = some p := by
  induction l with
  | nil => cases hp
  | cons h t ih =>
    by_cases hh : h.1 = p.1
    · rcases List.mem_cons.mp hp with rfl | hpt
      · exact List.find?_cons_of_pos _ (by simp)
      · exfalso
        have h1 : p.1 ∈ t.map Prod.fst := List.mem_map_of_mem Prod.fst hpt
        have h2 : h.1 ∉ t.map Prod.fst := (List.nodup_cons.mp hnd).1
        exact h2 (hh ▸ h1)
    · have hpt : p ∈ t := by
        rcases List.mem_cons.mp hp with rfl | hpt
        · exact absurd rfl hh
        · exact hpt
      rw [List.find?_cons_of_neg _ (by simp [hh])]
      exact ih (List.nodup_cons.mp hnd).2 hpt

lemma adjList_entry {g : Graph} (hnd : (keysOf g).Nodup) {p : Node × List Node}
    (hp : p ∈ g.adj) : adjList g p.1 = p.2 := by
  rw [adjList, find?_eq_of_mem_nodup hnd hp]
  rfl

lemma mem_get_edges_iff {g : Graph} (hw : WFG g) (hd : g.directed = false)
    (u v : Node) :
    (u, v) ∈ get_edges g ↔ (v ∈ adjList g u ∧ u ≤ v) := by
  rw [get_edges, List.mem_flatten]
  constructor
  · rintro ⟨block, hblock, hmem⟩
    rcases List.mem_map.mp hblock with ⟨p, hp, rfl⟩
    rcases List.mem_map.mp hmem with ⟨m, hm, hme⟩
    rcases List.mem_filter.mp hm with ⟨hm2, hmpred⟩
    have hu : p.1 = u := congrArg Prod.fst hme
    have hv : m = v := congrArg Prod.snd hme
    constructor
    · rw [← hv, ← hu, adjList_entry hw.keysNodup hp]
      exact hm2
    · have hpred : ¬(m < p.1) := by
        rw [hd] at hmpred
        simp only [Bool.false_or, Bool.not_eq_true', decide_eq_false_iff_not] at hmpred
        exact hmpred
      have hle := le_of_not_lt hpred
      rwa [hu, hv] at hle
  · rintro ⟨hmem, hle⟩
    have hne : adjList g u ≠ [] := fun hh => by rw [hh] at hmem; cases hmem
    have hkey : hasNode g u = true := hw.ownerKey u hne
    rw [hasNode] at hkey
    rcases hf : g.adj.find? (fun q => q.1 == u) with _ | p
    · rw [hf] at hkey; exact Bool.noConfusion hkey
    · have hp : p ∈ g.adj := List.mem_of_find?_eq_some hf
      have hpu : p.1 = u := by
        have := List.find?_some hf
        simpa using this
      have hlist : p.2 = adjList g u := by
        rw [← hpu, adjList_entry hw.keysNodup hp]
      refine ⟨(p.2.filter (fun m => g.directed || !(m < p.1))).map (fun m => (p.1, m)),
        List.mem_map_of_mem _ hp, ?_⟩
      refine List.mem_map.mpr ⟨v, ?_, by rw [hpu]⟩
      refine List.mem_filter.mpr ⟨by rw [hlist]; exact hmem, ?_⟩
      rw [hd, hpu]
      have hnlt : ¬(v < u) := not_lt.mpr hle
      simp [hnlt]

lemma get_edges_nodup {g : Graph} (hw : WFG g) : (get_edges g).Nodup := by
  rw [get_edges, List.nodup_flatten]
  constructor
  · intro block hblock
    rcases List.mem_map.mp hblock with ⟨p, hp, rfl⟩
    have hnd : p.2.Nodup := by
      rw [← adjList_entry hw.keysNodup hp]
      exact hw.listsNodup p.1
    exact (hnd.filter _).map (fun x y hxy => congrArg Prod.snd hxy)
  · rw [List.pairwise_map]
    have hkeys : g.adj.Pairwise (fun p q => p.1 ≠ q.1) := by
      have h0 := hw.keysNodup
      rw [keysOf] at h0
      exact List.pairwise_map.mp h0
    exact hkeys.imp (fun {p q} hne => by
      intro x hx hy
      rcases List.mem_map.mp hx with ⟨m, _, rfl⟩
      rcases List.mem_map.mp hy with ⟨m', _, hm'⟩
      exact hne (congrArg Prod.fst hm').symm)

lemma count_eq_one_of_mem_nodup {α : Type} [BEq α] [LawfulBEq α] {l : List α}
    (hnd : l.Nodup) {x : α} (hx : x ∈ l) : l.count x = 1 := by
  induction l with
  | nil => cases hx
  | cons h t ih =>
    rw [List.count_cons]
    rcases List.mem_cons.mp hx with rfl | hxt
    · have hxnot : x ∉ t := (List.nodup_cons.mp hnd).1
      rw [List.count_eq_zero.mpr hxnot]
      simp
    · have hne : h ≠ x := by
        intro hh
        exact (List.nodup_cons.mp hnd).1 (hh ▸ hxt)
      rw [ih (List.nodup_cons.mp hnd).2 hxt]
      simp [hne]

/-- C6 counterexample: on the undirected graph built by `add_edge(2, 1)`
the single edge is reported as `(1, 2)`, whose first component `1` is the
node encountered second (not first) in the outer iteration over nodes. -/
theorem get_edges_first_encounter_counterexample :
    get_nodes (add_edge ⟨false, []⟩ 2 1) = [2, 1] ∧
    get_edges (add_edge ⟨false, []⟩ 2 1) = [(1, 2)] := by decide

/-- C6 (amended): on every reachable undirected graph each edge `{u, v}`
with `u ≠ v` is reported exactly once, as `(u, v)` with `u ≤ v` — the
smaller endpoint first under the node ordering, regardless of which
endpoint the outer iteration encounters first; the reverse pair is never
reported alongside it, and self-loops are reported exactly once. -/
theorem get_edges_dedup_amended (g : Graph) (hb : Built g)
    (hd : g.directed = false) :
    (∀ u v, ((u, v) ∈ get_edges g ↔ (v ∈ get_neighbors g u ∧ u ≤ v))) ∧
    (∀ u v, v ∈ get_neighbors g u → u ≤ v → (get_edges g).count (u, v) = 1) ∧
    (∀ u v, u ≠ v → ¬((u, v) ∈ get_edges g ∧ (v, u) ∈ get_edges g)) := by
  have hw := wfg_of_built hb
  refine ⟨fun u v => mem_get_edges_iff hw hd u v, ?_, ?_⟩
  · intro u v hmem hle
    exact count_eq_one_of_mem_nodup (get_edges_nodup hw)
      ((mem_get_edges_iff hw hd u v).mpr ⟨hmem, hle⟩)
  · rintro u v hne ⟨h1, h2⟩
    have hle1 := ((mem_get_edges_iff hw hd u v).mp h1).2
    have hle2 := ((mem_get_edges_iff hw hd v u).mp h2).2
    exact hne (le_antisymm hle1 hle2)

theorem get_edges_dedup_amended_witness :
    ((1, 2) ∈ get_edges (add_edge ⟨false, []⟩ 2 1) ↔
      (2 ∈ get_neighbors (add_edge ⟨false, []⟩ 2 1) 1 ∧ 1 ≤ 2)) :=
  (get_edges_dedup_amended (add_edge ⟨false, []⟩ 2 1)
    (Built.edge 2 1 (Built.base false)) (by decide)).1 1 2

/-! ### Claim C7: `topological_sort` on undirected graphs -/

lemma kahnLoop_nil (g : Graph) (ind : Node → Int) (res : List Node) :
    kahnLoop g [] ind res = res := by
  rw [kahnLoop]

lemma kahnLoop_cons (g : Graph) (n : Node) (rest : List Node) (ind : Node → Int)
    (res : List Node) :
    kahnLoop g (n :: rest) ind res =
      kahnLoop g (stepNeighbors (adjList g n) ind rest).2
        (stepNeighbors (adjList g n) ind rest).1 (res ++ [n]) := by
  rw [kahnLoop]

/-- When every queued node has no neighbours, the Kahn loop simply drains
the queue into the result. -/
lemma kahnLoop_isolated (g : Graph) (q : List Node) (ind : Node → Int)
    (res : List Node) (hq : ∀ n ∈ q, adjList g n = []) :
    kahnLoop g q ind res = res ++ q := by
  induction q generalizing ind res with
  | nil => rw [kahnLoop_nil, List.append_nil]
  | cons n rest ih =>
    rw [kahnLoop_cons, hq n (List.mem_cons_self n rest)]
    have hstep : stepNeighbors [] ind rest = (ind, rest) := rfl
    rw [hstep]
    rw [ih ind (res ++ [n]) (fun x hx => hq x (List.mem_cons_of_mem n hx))]
    simp

lemma mem_flatten_snd_iff {g : Graph} (hw : WFG g) (v : Node) :
    v ∈ (g.adj.map Prod.snd).flatten ↔ ∃ w, v ∈ adjList g w := by
  rw [List.mem_flatten]
  constructor
  · rintro ⟨l, hl, hv⟩
    rcases List.mem_map.mp hl with ⟨p, hp, rfl⟩
    exact ⟨p.1, by rw [adjList_entry hw.keysNodup hp]; exact hv⟩
  · rintro ⟨w, hv⟩
    have hne : adjList g w ≠ [] := fun hh => by rw [hh] at hv; cases hv
    have hkey := hw.ownerKey w hne
    rw [hasNode] at hkey
    rcases hf : g.adj.find? (fun q => q.1 == w) with _ | p
    · rw [hf] at hkey; exact Bool.noConfusion hkey
    · have hp : p ∈ g.adj := List.mem_of_find?_eq_some hf
      refine ⟨p.2, List.mem_map_of_mem Prod.snd hp, ?_⟩
      have hpw : p.1 = w := by
        have := List.find?_some hf
        simpa using this
      rw [← adjList_entry hw.keysNodup hp, hpw]
      exact hv

/-- On a symmetric graph, in-degree zero is exactly isolation. -/
lemma indeg0_eq_zero_iff {g : Graph} (hw : WFG g) (hd : g.directed = false)
    (v : Node) : indeg0 g v = 0 ↔ adjList g v = [] := by
  rw [indeg0]
  constructor
  · intro h0
    by_contra hne
    rcases List.exists_mem_of_ne_nil _ hne with ⟨u, hu⟩
    have hv : ∃ w, v ∈ adjList g w := by
      by_cases huv : u = v
      · exact ⟨v, by rw [huv] at hu; exact hu⟩
      · exact ⟨u, hw.symm hd v u hu (fun hh => huv hh.symm)⟩
    have hmem := (mem_flatten_snd_iff hw v).mpr hv
    have hpos := List.count_pos_iff.mpr hmem
    omega
  · intro hnil
    have hnot : v ∉ (g.adj.map Prod.snd).flatten := by
      intro hmem
      rcases (mem_flatten_snd_iff hw v).mp hmem with ⟨w, hv⟩
      by_cases hwv : w = v
      · rw [hwv, hnil] at hv; cases hv
      · have := hw.symm hd w v hv hwv
        rw [hnil] at this; cases this
    rw [List.count_eq_zero.mpr hnot]
    rfl

lemma keysOf_length (g : Graph) : (keysOf g).length = g.adj.length := by
  rw [keysOf, List.length_map]

/-- C7 counterexample: an undirected graph with one node and no edges, on
which `topological_sort` returns the node list rather than `null`. -/
theorem topological_sort_undirected_counterexample :
    (add_node ⟨false, []⟩ 0).directed = false ∧
    topological_sort (add_node ⟨false, []⟩ 0) = some [0] := by
  refine ⟨by decide, ?_⟩
  have hg : add_node ⟨false, []⟩ 0 = ⟨false, [(0, [])]⟩ := by decide
  rw [hg]
  simp only [topological_sort]
  rw [if_neg (by simp)]
  have hseed : (keysOf ⟨false, [(0, [])]⟩).filter
      (fun v => indeg0 ⟨false, [(0, [])]⟩ v == 0) = [0] := by decide
  rw [hseed, kahnLoop_isolated _ _ _ _ (by intro n hn; simp at hn; subst hn; rfl)]
  simp

/-- C7 (amended): for every reachable undirected graph, `topological_sort`
returns `null` exactly when the graph has at least one edge; on an
edgeless graph it instead returns the full node list. -/
theorem topological_sort_undirected_amended (g : Graph) (hb : Built g)
    (hd : g.directed = false) :
    (topological_sort g = none ↔ ∃ n, get_neighbors g n ≠ []) ∧
    ((∀ n, get_neighbors g n = []) → topological_sort g = some (get_nodes g)) := by
  have hw := wfg_of_built hb
  have hguard : (g.directed && has_cycle g) = false := by rw [hd]; rfl
  have hseeds : ∀ n ∈ (keysOf g).filter (fun v => indeg0 g v == 0),
      adjList g n = [] := by
    intro n hn
    rcases List.mem_filter.mp hn with ⟨_, hpred⟩
    exact (indeg0_eq_zero_iff hw hd n).mp (by simpa using hpred)
  have hrun : topological_sort g =
      if ((keysOf g).filter (fun v => indeg0 g v == 0)).length ≠ g.adj.length
      then none
      else some ((keysOf g).filter (fun v => indeg0 g v == 0)) := by
    rw [topological_sort, hguard]
    simp only [Bool.false_eq_true, if_false]
    rw [kahnLoop_isolated g _ (indeg0 g) [] hseeds]
    simp
  constructor
  · constructor
    · intro hnone
      rw [hrun] at hnone
      by_contra hno
      push_neg at hno
      have hall : ∀ k ∈ keysOf g, (fun v => indeg0 g v == 0) k = true := by
        intro k _
        simp only [beq_iff_eq]
        exact (indeg0_eq_zero_iff hw hd k).mpr (hno k)
      rw [List.filter_eq_self.mpr hall, keysOf_length] at hnone
      simp at hnone
    · rintro ⟨n, hne⟩
      rw [hrun]
      have hkey : hasNode g n = true := hw.ownerKey n hne
      have hmem : n ∈ keysOf g := (hasNode_iff_mem_keys g n).mp hkey
      have hlt : ((keysOf g).filter (fun v => indeg0 g v == 0)).length <
          (keysOf g).length := by
        rw [List.length_filter_lt_length_iff_exists]
        refine ⟨n, hmem, ?_⟩
        simp only [beq_iff_eq]
        intro h0
        exact hne ((indeg0_eq_zero_iff hw hd n).mp h0)
      rw [keysOf_length] at hlt
      rw [if_pos (by omega)]
  · intro hno
    have hall : ∀ k ∈ keysOf g, (fun v => indeg0 g v == 0) k = true := by
      intro k _
      simp only [beq_iff_eq]
      exact (indeg0_eq_zero_iff hw hd k).mpr (hno k)
    rw [hrun, List.filter_eq_self.mpr hall, keysOf_length]
    simp [get_nodes]

theorem topological_sort_undirected_amended_witness :
    topological_sort (add_edge ⟨false, []⟩ 0 1) = none :=
  ((topological_sort_undirected_amended (add_edge ⟨false, []⟩ 0 1)
    (Built.edge 0 1 (Built.base false)) (by decide)).1).mpr
    ⟨0, by decide⟩

/-! ### Claim C8: iterative dfs equals the recursive preorder DFS

`dfsRecNodeF`/`dfsRecListF` formalise the specification's order guarantee:
a recursive preorder depth-first search that emits a node on first visit
and then explores its not-yet-visited neighbours in insertion order, each
neighbour's entire subtree before the next neighbour.  A fuel parameter
bounds the recursion depth; `dfsRec_isSome` shows the chosen bound is
never exhausted. -/

mutual
/-- Modelled from the spec: recursive preorder `visit(n)` — if `n` is
unvisited, append it to the output and recursively visit its neighbours in
insertion order. -/
def dfsRecNodeF (g : Graph) : Nat → Node → List Node → Option (List Node)
  | f, n, vis =>
    if n ∈ vis then some vis
    else
      match f with
      | 0 => none
      | f + 1 => dfsRecListF g f (adjList g n) (vis ++ [n])
termination_by f _ _ => (f, 0)
decreasing_by
  exact Prod.Lex.left _ _ (Nat.lt_succ_self _)

/-- Modelled from the spec: visit each node of `l` in order. -/
def dfsRecListF (g : Graph) : Nat → List Node → List Node → Option (List Node)
  | _, [], vis => some vis
  | f, m :: r, vis =>
    match dfsRecNodeF g f m vis with
    | none => none
    | some vis2 => dfsRecListF g f r vis2
termination_by f l _ => (f, l.length + 1)
decreasing_by
  · exact Prod.Lex.right _ (Nat.succ_pos _)
  · exact Prod.Lex.right _ (Nat.lt_succ_self _)
end

/-- The recursive DFS only appends to the visited list. -/
lemma dfsRec_extends (g : Graph) (f : Nat) :
    (∀ n vis out, dfsRecNodeF g f n vis = some out → ∃ t, out = vis ++ t) ∧
    (∀ l vis out, dfsRecListF g f l vis = some out → ∃ t, out = vis ++ t) := by
  induction f with
  | zero =>
    have hnode : ∀ n vis out, dfsRecNodeF g 0 n vis = some out → ∃ t, out = vis ++ t := by
      intro n vis out h
      rw [dfsRecNodeF] at h
      by_cases hn : n ∈ vis
      · rw [if_pos hn] at h
        exact ⟨[], by simpa using (Option.some.injEq _ _ ▸ h).symm⟩
      · rw [if_neg hn] at h
        exact Option.noConfusion h
    refine ⟨hnode, ?_⟩
    intro l
    induction l with
    | nil =>
      intro vis out h
      rw [dfsRecListF] at h
      exact ⟨[], by simpa using (Option.some.injEq _ _ ▸ h).symm⟩
    | cons m r ih =>
      intro vis out h
      rw [dfsRecListF] at h
      rcases hm : dfsRecNodeF g 0 m vis with _ | vis2
      · rw [hm] at h; exact Option.noConfusion h
      · rw [hm] at h
        rcases hnode m vis vis2 hm with ⟨t1, rfl⟩
        rcases ih _ out h with ⟨t2, rfl⟩
        exact ⟨t1 ++ t2, by rw [List.append_assoc]⟩
  | succ f ihf =>
    have hnode : ∀ n vis out, dfsRecNodeF g (f + 1) n vis = some out →
        ∃ t, out = vis ++ t := by
      intro n vis out h
      rw [dfsRecNodeF] at h
      by_cases hn : n ∈ vis
      · rw [if_pos hn] at h
        exact ⟨[], by simpa using (Option.some.injEq _ _ ▸ h).symm⟩
      · rw [if_neg hn] at h
        rcases ihf.2 _ _ _ h with ⟨t, rfl⟩
        exact ⟨[n] ++ t, by rw [List.append_assoc]⟩
    refine ⟨hnode, ?_⟩
    intro l
    induction l with
    | nil =>
      intro vis out h
      rw [dfsRecListF] at h
      exact ⟨[], by simpa using (Option.some.injEq _ _ ▸ h).symm⟩
    | cons m r ih =>
      intro vis out h
      rw [dfsRecListF] at h
      rcases hm : dfsRecNodeF g (f + 1) m vis with _ | vis2
      · rw [hm] at h; exact Option.noConfusion h
      · rw [hm] at h
        rcases hnode m vis vis2 hm with ⟨t1, rfl⟩
        rcases ih _ out h with ⟨t2, rfl⟩
        exact ⟨t1 ++ t2, by rw [List.append_assoc]⟩

/-- The fuel bound is sufficient: the recursive DFS never runs out. -/
lemma dfsRec_isSome (g : Graph) (f : Nat) :
    (∀ n vis, (mentions g \ (insert n vis.toFinset)).card < f →
      (dfsRecNodeF g f n vis).isSome = true) ∧
    (∀ l vis, (∀ m ∈ l, m ∈ mentions g) →
      (mentions g \ vis.toFinset).card ≤ f →
      (dfsRecListF g f l vis).isSome = true) := by
  induction f with
  | zero =>
    refine ⟨fun n vis hcard => absurd hcard (by omega), ?_⟩
    intro l
    induction l with
    | nil =>
      intro vis _ _
      rw [dfsRecListF]
      rfl
    | cons m r ih =>
      intro vis hl hcard
      have hm : m ∈ vis := by
        by_contra hmv
        have hmem : m ∈ mentions g \ vis.toFinset := by
          simp [hl m (List.mem_cons_self m r), hmv]
        have := Finset.card_pos.mpr ⟨m, hmem⟩
        omega
      rw [dfsRecListF, dfsRecNodeF, if_pos hm]
      exact ih vis (fun x hx => hl x (List.mem_cons_of_mem m hx)) hcard
  | succ f ihf =>
    have hnode : ∀ n vis, (mentions g \ (insert n vis.toFinset)).card < f + 1 →
        (dfsRecNodeF g (f + 1) n vis).isSome = true := by
      intro n vis hcard
      rw [dfsRecNodeF]
      by_cases hn : n ∈ vis
      · rw [if_pos hn]; rfl
      · rw [if_neg hn]
        have hsub : mentions g \ (vis ++ [n]).toFinset ⊆
            mentions g \ (insert n vis.toFinset) := by
          intro x hx
          simp only [Finset.mem_sdiff, List.toFinset_append, Finset.mem_union,
            List.mem_toFinset, Finset.mem_insert, List.mem_singleton, not_or] at hx ⊢
          tauto
        have hle := Finset.card_le_card hsub
        exact ihf.2 (adjList g n) (vis ++ [n]) (adjList_subset_mentions g n) (by omega)
    refine ⟨hnode, ?_⟩
    intro l
    induction l with
    | nil =>
      intro vis _ _
      rw [dfsRecListF]
      rfl
    | cons m r ih =>
      intro vis hl hcard
      rw [dfsRecListF]
      by_cases hm : m ∈ vis
      · rw [dfsRecNodeF, if_pos hm]
        exact ih vis (fun x hx => hl x (List.mem_cons_of_mem m hx)) hcard
      · have hmem : m ∈ mentions g \ vis.toFinset := by
          simp [hl m (List.mem_cons_self m r), hm]
        have hlt : (mentions g \ (insert m vis.toFinset)).card <
            (mentions g \ vis.toFinset).card := by
          apply Finset.card_lt_card
          rw [Finset.ssubset_def]
          constructor
          · intro x hx
            simp only [Finset.mem_sdiff, Finset.mem_insert, not_or] at hx ⊢
            exact ⟨hx.1, hx.2.2⟩
          · intro hsub
            have := hsub hmem
            simp at this
        have hN := hnode m vis (by omega)
        rcases hsome : dfsRecNodeF g (f + 1) m vis with _ | vis2
        · rw [hsome] at hN; exact Bool.noConfusion hN
        · rcases (dfsRec_extends g (f + 1)).1 m vis vis2 hsome with ⟨t, rfl⟩
          have hsub2 : mentions g \ (vis ++ t).toFinset ⊆ mentions g \ vis.toFinset := by
            intro x hx
            simp only [Finset.mem_sdiff, List.toFinset_append, Finset.mem_union,
              List.mem_toFinset, not_or] at hx ⊢
            exact ⟨hx.1, hx.2.1⟩
          have hle2 := Finset.card_le_card hsub2
          exact ih (vis ++ t) (fun x hx => hl x (List.mem_cons_of_mem m hx)) (by omega)

/-- Modelled from the spec: the recursive preorder depth-first search that
visits `start` first and then each not-yet-visited neighbour in insertion
order, the first neighbour's entire subtree before the second. -/
def dfs_rec (g : Graph) (start : Node) : List Node :=
  (dfsRecNodeF g (fuelBound g + 1) start []).getD []

lemma dfsLoop_nil (g : Graph) (vis : List Node) : dfsLoop g [] vis = vis := by
  rw [dfsLoop]

lemma dfsLoop_cons_mem (g : Graph) {n : Node} {vis : List Node} (rest : List Node)
    (h : n ∈ vis) : dfsLoop g (n :: rest) vis = dfsLoop g rest vis := by
  rw [dfsLoop, if_pos h]

lemma dfsLoop_cons_not_mem (g : Graph) {n : Node} {vis : List Node} (rest : List Node)
    (h : n ∉ vis) :
    dfsLoop g (n :: rest) vis = dfsLoop g (adjList g n ++ rest) (vis ++ [n]) := by
  rw [dfsLoop, if_neg h]

/-- Core simulation: running the stack loop on `l ++ st` is running the
recursive DFS on `l` and then the loop on `st`. -/
lemma dfsLoop_simulates (g : Graph) (f : Nat) :
    ∀ l st vis out, dfsRecListF g f l vis = some out →
      dfsLoop g (l ++ st) vis = dfsLoop g st out := by
  induction f with
  | zero =>
    intro l
    induction l with
    | nil =>
      intro st vis out h
      rw [dfsRecListF] at h
      cases h
      rfl
    | cons m r ih =>
      intro st vis out h
      rw [dfsRecListF] at h
      rcases hm : dfsRecNodeF g 0 m vis with _ | vis2
      · rw [hm] at h; exact Option.noConfusion h
      · rw [hm] at h
        rw [dfsRecNodeF] at hm
        by_cases hmv : m ∈ vis
        · rw [if_pos hmv] at hm
          injection hm with hv
          subst hv
          rw [List.cons_append, dfsLoop_cons_mem g (r ++ st) hmv]
          exact ih st vis out h
        · rw [if_neg hmv] at hm
          exact Option.noConfusion hm
  | succ f ihf =>
    intro l
    induction l with
    | nil =>
      intro st vis out h
      rw [dfsRecListF] at h
      cases h
      rfl
    | cons m r ih =>
      intro st vis out h
      rw [dfsRecListF] at h
      rcases hm : dfsRecNodeF g (f + 1) m vis with _ | vis2
      · rw [hm] at h; exact Option.noConfusion h
      · rw [hm] at h
        rw [dfsRecNodeF] at hm
        by_cases hmv : m ∈ vis
        · rw [if_pos hmv] at hm
          injection hm with hv
          subst hv
          rw [List.cons_append, dfsLoop_cons_mem g (r ++ st) hmv]
          exact ih st vis out h
        · rw [if_neg hmv] at hm
          rw [List.cons_append, dfsLoop_cons_not_mem g (r ++ st) hmv]
          have hstep := ihf (adjList g m) (r ++ st) (vis ++ [m]) vis2 hm
          rw [hstep]
          exact ih st vis2 out h

/-- C8: for every graph and known start node, the iterative stack-based
`dfs` produces exactly the sequence of the recursive preorder depth-first
search described by the specification. -/
theorem dfs_matches_recursive_preorder (g : Graph) (s : Node)
    (_h : hasNode g s = true) : dfs g s = dfs_rec g s := by
  have hcard : (mentions g \ (insert s ([] : List Node).toFinset)).card < fuelBound g + 1 := by
    have := Finset.card_le_card (Finset.sdiff_subset (s := mentions g)
      (t := insert s ([] : List Node).toFinset))
    rw [fuelBound]
    omega
  have hN := (dfsRec_isSome g (fuelBound g + 1)).1 s [] hcard
  rcases hsome : dfsRecNodeF g (fuelBound g + 1) s [] with _ | out
  · rw [hsome] at hN; exact Bool.noConfusion hN
  · rw [dfs_rec, hsome]
    rw [dfsRecNodeF] at hsome
    rw [if_neg (List.not_mem_nil s)] at hsome
    rw [dfs]
    have : ([s] : List Node) = [] ++ [s] := rfl
    rw [dfsLoop_cons_not_mem g [] (List.not_mem_nil s)]
    have hsim := dfsLoop_simulates g (fuelBound g) (adjList g s) [] ([] ++ [s]) out hsome
    rw [hsim, dfsLoop_nil]
    rfl

theorem dfs_matches_recursive_preorder_witness :
    dfs ⟨true, [(0, [1, 2]), (1, [2]), (2, [])]⟩ 0 =
      dfs_rec ⟨true, [(0, [1, 2]), (1, [2]), (2, [])]⟩ 0 :=
  dfs_matches_recursive_preorder ⟨true, [(0, [1, 2]), (1, [2]), (2, [])]⟩ 0 (by decide)

/-! ### Claim C5: directed cycle detection

The three-colour depth-first search `_has_cycle_directed` returns `true`
exactly when the graph has a directed cycle.  The forward direction
reconstructs a cycle from the grey path on the recursion stack; the
converse maintains a finish-order list along which every edge points
strictly backwards, which rules out cycles. -/

lemma chain'_append_single {R : Node → Node → Prop} {l : List Node} {c m : Node}
    (h1 : l.Chain' R) (h2 : l.getLast? = some c) (h3 : R c m) :
    (l ++ [m]).Chain' R := by
  rw [List.chain'_append]
  refine ⟨h1, List.chain'_singleton m, ?_⟩
  intro x hx y hy
  rw [h2] at hx
  simp only [Option.mem_def, Option.some.injEq] at hx
  simp only [List.head?_cons, Option.mem_def, Option.some.injEq] at hy
  subst hx
  subst hy
  exact h3

/-- Position of a node in a finish list. -/
def idxOf (l : List Node) (x : Node) : Nat := l.findIdx (fun y => y == x)

lemma idxOf_lt_length {l : List Node} {x : Node} (h : x ∈ l) :
    idxOf l x < l.length :=
  List.findIdx_lt_length_of_exists ⟨x, h, by simp⟩

lemma idxOf_append_of_mem {l l' : List Node} {x : Node} (h : x ∈ l) :
    idxOf (l ++ l') x = idxOf l x :=
  findIdx_append_of_exists _ _ _ ⟨x, h, by simp⟩

lemma idxOf_append_self {l : List Node} {x : Node} (h : x ∉ l) :
    idxOf (l ++ [x]) x = l.length := by
  rw [idxOf, findIdx_append_of_forall _ _ _ (fun y hy => by
    simp only [beq_eq_false_iff_ne]
    intro hxy
    exact h (hxy ▸ hy))]
  simp [List.findIdx_cons]

lemma toFinset_append_single (l : List Node) (x : Node) :
    (l ++ [x]).toFinset = insert x l.toFinset := by
  ext y
  simp [or_comm]

lemma some_pair_inj {b b' : Bool} {s s' : DState}
    (h : (some (b, s) : Option (Bool × DState)) = some (b', s')) :
    b = b' ∧ s = s' := by
  injection h with h2
  exact ⟨congrArg Prod.fst h2, congrArg Prod.snd h2⟩

lemma visitND_zero (g : Graph) (n : Node) (s : DState) :
    visitND g 0 n s = none := by
  rw [visitND]

lemma visitND_succ (g : Graph) (f : Nat) (n : Node) (s : DState) :
    visitND g (f + 1) n s =
      match visitLD g f (adjList g n) ⟨insert n s.vis, insert n s.stk⟩ with
      | none => none
      | some (true, s2) => some (true, s2)
      | some (false, s2) => some (false, ⟨s2.vis, s2.stk.erase n⟩) := by
  rw [visitND]

lemma visitLD_nil (g : Graph) (f : Nat) (s : DState) :
    visitLD g f [] s = some (false, s) := by
  rw [visitLD]

lemma visitLD_cons (g : Graph) (f : Nat) (m : Node) (r : List Node) (s : DState) :
    visitLD g f (m :: r) s =
      if m ∉ s.vis then
        match visitND g f m s with
        | none => none
        | some (true, s2) => some (true, s2)
        | some (false, s2) => visitLD g f r s2
      else if m ∈ s.stk then some (true, s)
      else visitLD g f r s := by
  rw [visitLD]

/-- Basic postconditions of a `False` return: the stack is restored and
the visited set only grows. -/
lemma visitD_false_post (g : Graph) (f : Nat) :
    (∀ n s s', visitND g f n s = some (false, s') → n ∉ s.stk → s.stk ⊆ s.vis →
      s'.stk = s.stk ∧ s.vis ⊆ s'.vis ∧ n ∈ s'.vis) ∧
    (∀ l s s', visitLD g f l s = some (false, s') → s.stk ⊆ s.vis →
      s'.stk = s.stk ∧ s.vis ⊆ s'.vis) := by
  induction f with
  | zero =>
    refine ⟨fun n s s' h _ _ => absurd h (by rw [visitND_zero]; exact Option.noConfusion), ?_⟩
    intro l
    induction l with
    | nil =>
      intro s s' h _
      rw [visitLD_nil] at h
      obtain ⟨_, rfl⟩ := some_pair_inj h
      exact ⟨rfl, le_refl _⟩
    | cons m r ih =>
      intro s s' h hsv
      rw [visitLD_cons] at h
      by_cases hm : m ∈ s.vis
      · rw [if_neg (by simpa using hm)] at h
        by_cases hms : m ∈ s.stk
        · rw [if_pos hms] at h
          obtain ⟨hb, _⟩ := some_pair_inj h
          exact Bool.noConfusion hb
        · rw [if_neg hms] at h
          exact ih s s' h hsv
      · rw [if_pos (by simpa using hm), visitND_zero] at h
        exact Option.noConfusion h
  | succ f ihf =>
    have hnode : ∀ n s s', visitND g (f + 1) n s = some (false, s') → n ∉ s.stk →
        s.stk ⊆ s.vis → s'.stk = s.stk ∧ s.vis ⊆ s'.vis ∧ n ∈ s'.vis := by
      intro n s s' h hns hsv
      rw [visitND_succ] at h
      rcases hld : visitLD g f (adjList g n) ⟨insert n s.vis, insert n s.stk⟩
        with _ | ⟨b, s2⟩
      · rw [hld] at h
        exact Option.noConfusion h
      · rw [hld] at h
        cases b
        · obtain ⟨_, rfl⟩ := some_pair_inj h
          have hpost := ihf.2 (adjList g n) _ _ hld (by
            intro x hx
            simp only [Finset.mem_insert] at hx ⊢
            rcases hx with rfl | hx
            · exact Or.inl rfl
            · exact Or.inr (hsv hx))
          refine ⟨?_, ?_, ?_⟩
          · show s2.stk.erase n = s.stk
            rw [hpost.1]
            show (insert n s.stk).erase n = s.stk
            exact Finset.erase_insert hns
          · intro x hx
            exact hpost.2 (Finset.mem_insert_of_mem hx)
          · exact hpost.2 (Finset.mem_insert_self n _)
        · obtain ⟨hb, _⟩ := some_pair_inj h
          exact Bool.noConfusion hb
    refine ⟨hnode, ?_⟩
    intro l
    induction l with
    | nil =>
      intro s s' h _
      rw [visitLD_nil] at h
      obtain ⟨_, rfl⟩ := some_pair_inj h
      exact ⟨rfl, le_refl _⟩
    | cons m r ih =>
      intro s s' h hsv
      rw [visitLD_cons] at h
      by_cases hm : m ∈ s.vis
      · rw [if_neg (by simpa using hm)] at h
        by_cases hms : m ∈ s.stk
        · rw [if_pos hms] at h
          obtain ⟨hb, _⟩ := some_pair_inj h
          exact Bool.noConfusion hb
        · rw [if_neg hms] at h
          exact ih s s' h hsv
      · rw [if_pos (by simpa using hm)] at h
        rcases hnd : visitND g (f + 1) m s with _ | ⟨b, s2⟩
        · rw [hnd] at h
          exact Option.noConfusion h
        · rw [hnd] at h
          cases b
          · have hp1 := hnode m s s2 hnd (fun hh => hm (hsv hh)) hsv
            have hp2 := ih s2 s' h (by rw [hp1.1]; intro x hx; exact hp1.2.1 (hsv hx))
            exact ⟨by rw [hp2.1, hp1.1], le_trans hp1.2.1 hp2.2⟩
          · obtain ⟨hb, _⟩ := some_pair_inj h
            exact Bool.noConfusion hb

/-- From a visited on-stack neighbour, reconstruct a directed cycle. -/
lemma cycle_of_grey_hit {g : Graph} {Q : List Node} {cur m : Node}
    (hchain : Q.Chain' (EdgeRel g)) (hlast : Q.getLast? = some cur)
    (hedge : EdgeRel g cur m) (hmQ : m ∈ Q) : HasDirectedCycle g := by
  rcases List.append_of_mem hmQ with ⟨A, B, rfl⟩
  have hchainB : (m :: B).Chain' (EdgeRel g) := (List.chain'_append.mp hchain).2.1
  have hlastB : (m :: B).getLast? = some cur := by
    rw [← hlast, List.getLast?_append_of_ne_nil A (by simp)]
  refine ⟨(m :: B) ++ [m], ?_, ?_, ?_⟩
  · simp
  · exact chain'_append_single hchainB hlastB hedge
  · have h1 : ((m :: B) ++ [m]).getLast? = some m := by
      rw [List.getLast?_append_of_ne_nil (m :: B) (by simp)]
      rfl
    rw [h1]
    rfl

/-- A `True` return of the inner dfs yields a directed cycle.  `Q` is the
grey path on the recursion stack. -/
lemma visitD_true_cycle (g : Graph) (f : Nat) :
    (∀ (n : Node) (s s' : DState) (Q : List Node),
      visitND g f n s = some (true, s') → s.stk ⊆ s.vis →
      s.stk = Q.toFinset → (Q ++ [n]).Chain' (EdgeRel g) → (Q ++ [n]).Nodup →
      HasDirectedCycle g) ∧
    (∀ (l : List Node) (s s' : DState) (Q : List Node) (cur : Node),
      visitLD g f l s = some (true, s') → s.stk ⊆ s.vis →
      s.stk = Q.toFinset → Q.Chain' (EdgeRel g) → Q.Nodup →
      Q.getLast? = some cur → (∀ m ∈ l, EdgeRel g cur m) →
      HasDirectedCycle g) := by
  induction f with
  | zero =>
    refine ⟨fun n s s' Q h _ _ _ _ =>
      absurd h (by rw [visitND_zero]; exact Option.noConfusion), ?_⟩
    intro l
    induction l with
    | nil =>
      intro s s' Q cur h _ _ _ _ _ _
      rw [visitLD_nil] at h
      obtain ⟨hb, _⟩ := some_pair_inj h
      exact Bool.noConfusion hb
    | cons m r ih =>
      intro s s' Q cur h hsv hstk hchain hnd hlast hedges
      rw [visitLD_cons] at h
      by_cases hm : m ∈ s.vis
      · rw [if_neg (by simpa using hm)] at h
        by_cases hms : m ∈ s.stk
        · -- back edge: cycle found
          have hmQ : m ∈ Q := by
            rw [hstk] at hms
            exact List.mem_toFinset.mp hms
          exact cycle_of_grey_hit hchain hlast
            (hedges m (List.mem_cons_self m r)) hmQ
        · rw [if_neg hms] at h
          exact ih s s' Q cur h hsv hstk hchain hnd hlast
            (fun x hx => hedges x (List.mem_cons_of_mem m hx))
      · rw [if_pos (by simpa using hm), visitND_zero] at h
        exact Option.noConfusion h
  | succ f ihf =>
    have hnode : ∀ (n : Node) (s s' : DState) (Q : List Node),
        visitND g (f + 1) n s = some (true, s') →
        s.stk ⊆ s.vis → s.stk = Q.toFinset → (Q ++ [n]).Chain' (EdgeRel g) →
        (Q ++ [n]).Nodup → HasDirectedCycle g := by
      intro n s s' Q h hsv hstk hchain hnd
      rw [visitND_succ] at h
      rcases hld : visitLD g f (adjList g n) ⟨insert n s.vis, insert n s.stk⟩
        with _ | ⟨b, s2⟩
      · rw [hld] at h
        exact Option.noConfusion h
      · rw [hld] at h
        cases b
        · obtain ⟨hb, _⟩ := some_pair_inj h
          exact Bool.noConfusion hb
        · refine ihf.2 (adjList g n) _ s2 (Q ++ [n]) n hld ?_ ?_ hchain hnd ?_ ?_
          · intro x hx
            simp only [Finset.mem_insert] at hx ⊢
            rcases hx with rfl | hx
            · exact Or.inl rfl
            · exact Or.inr (hsv hx)
          · show insert n s.stk = (Q ++ [n]).toFinset
            rw [toFinset_append_single, hstk]
          · rw [List.getLast?_append_of_ne_nil Q (by simp)]
            rfl
          · exact fun m hm => hm
    refine ⟨hnode, ?_⟩
    intro l
    induction l with
    | nil =>
      intro s s' Q cur h _ _ _ _ _ _
      rw [visitLD_nil] at h
      obtain ⟨hb, _⟩ := some_pair_inj h
      exact Bool.noConfusion hb
    | cons m r ih =>
      intro s s' Q cur h hsv hstk hchain hnd hlast hedges
      rw [visitLD_cons] at h
      by_cases hm : m ∈ s.vis
      · rw [if_neg (by simpa using hm)] at h
        by_cases hms : m ∈ s.stk
        · have hmQ : m ∈ Q := by
            rw [hstk] at hms
            exact List.mem_toFinset.mp hms
          exact cycle_of_grey_hit hchain hlast
            (hedges m (List.mem_cons_self m r)) hmQ
        · rw [if_neg hms] at h
          exact ih s s' Q cur h hsv hstk hchain hnd hlast
            (fun x hx => hedges x (List.mem_cons_of_mem m hx))
      · rw [if_pos (by simpa using hm)] at h
        rcases hnd2 : visitND g (f + 1) m s with _ | ⟨b, s2⟩
        · rw [hnd2] at h
          exact Option.noConfusion h
        · rw [hnd2] at h
          cases b
          · -- recursive call returned False: stack unchanged, recurse
            have hpost := (visitD_false_post g (f + 1)).1 m s s2 hnd2
              (fun hh => hm (hsv hh)) hsv
            refine ih s2 s' Q cur h ?_ ?_ hchain hnd hlast
              (fun x hx => hedges x (List.mem_cons_of_mem m hx))
            · rw [hpost.1]
              intro x hx
              exact hpost.2.1 (hsv hx)
            · rw [hpost.1, hstk]
          · -- recursive call found a cycle below: extend the grey path
            have hmQ : m ∉ Q := by
              intro hin
              exact hm (hsv (by rw [hstk]; exact List.mem_toFinset.mpr hin))
            exact hnode m s s2 Q hnd2 hsv hstk
              (chain'_append_single hchain hlast (hedges m (List.mem_cons_self m r)))
              (nodup_append_single hnd hmQ)

lemma outerD_nil (g : Graph) (s : DState) : outerD g [] s = false := by
  rw [outerD]

lemma outerD_cons (g : Graph) (k : Node) (ks : List Node) (s : DState) :
    outerD g (k :: ks) s =
      if k ∉ s.vis then
        match visitND g (fuelBound g) k s with
        | none => false
        | some (true, _) => true
        | some (false, s') => outerD g ks s'
      else outerD g ks s := by
  rw [outerD]

lemma outerD_true_cycle (g : Graph) :
    ∀ ks s, outerD g ks s = true → s.stk = ∅ → HasDirectedCycle g := by
  intro ks
  induction ks with
  | nil =>
    intro s h _
    rw [outerD_nil] at h
    exact Bool.noConfusion h
  | cons k ks ih =>
    intro s h hstk
    rw [outerD_cons] at h
    have hsv : s.stk ⊆ s.vis := by rw [hstk]; intro x hx; cases Finset.not_mem_empty x hx
    by_cases hk : k ∈ s.vis
    · rw [if_neg (by simpa using hk)] at h
      exact ih s h hstk
    · rw [if_pos (by simpa using hk)] at h
      rcases hnd : visitND g (fuelBound g) k s with _ | ⟨b, s2⟩
      · rw [hnd] at h
        exact Bool.noConfusion h
      · rw [hnd] at h
        cases b
        · have hpost := (visitD_false_post g (fuelBound g)).1 k s s2 hnd
            (by rw [hstk]; exact Finset.not_mem_empty k) hsv
          exact ih s2 h (by rw [hpost.1, hstk])
        · exact (visitD_true_cycle g (fuelBound g)).1 k s s2 [] hnd hsv
            (by rw [hstk]; rfl) (by simp) (by simp)

/-- If `_has_cycle_directed` answers `true`, the graph has a directed
cycle. -/
lemma hasCycleDirected_imp (g : Graph) (h : hasCycleDirected g = true) :
    HasDirectedCycle g :=
  outerD_true_cycle g (keysOf g) ⟨∅, ∅⟩ h rfl

/-- Invariant for the converse direction: `F` lists the finished (black)
nodes in finish order, and every edge out of a finished node leads to an
earlier-finished node. -/
def GOODF (g : Graph) (s : DState) (F : List Node) : Prop :=
  F.Nodup ∧ F.toFinset = s.vis \ s.stk ∧
  ∀ u ∈ F, ∀ v ∈ adjList g u, v ∈ F ∧ idxOf F v < idxOf F u

/-- A `False` return extends the finish list, keeps it GOOD, and finishes
the visited node (list version: finishes every scanned neighbour). -/
lemma visitD_false_good (g : Graph) (f : Nat) :
    (∀ (n : Node) (s s' : DState) (F : List Node),
      visitND g f n s = some (false, s') → n ∉ s.vis → s.stk ⊆ s.vis →
      GOODF g s F → ∃ F', GOODF g s' F' ∧ (∃ t, F' = F ++ t) ∧ n ∈ F') ∧
    (∀ (l : List Node) (s s' : DState) (F : List Node),
      visitLD g f l s = some (false, s') → s.stk ⊆ s.vis →
      GOODF g s F → ∃ F', GOODF g s' F' ∧ (∃ t, F' = F ++ t) ∧ ∀ m ∈ l, m ∈ F') := by
  induction f with
  | zero =>
    refine ⟨fun n s s' F h _ _ _ =>
      absurd h (by rw [visitND_zero]; exact Option.noConfusion), ?_⟩
    intro l
    induction l with
    | nil =>
      intro s s' F h _ hgood
      rw [visitLD_nil] at h
      obtain ⟨_, rfl⟩ := some_pair_inj h
      exact ⟨F, hgood, ⟨[], by rw [List.append_nil]⟩, by intro m hm; cases hm⟩
    | cons m r ih =>
      intro s s' F h hsv hgood
      rw [visitLD_cons] at h
      by_cases hm : m ∈ s.vis
      · rw [if_neg (by simpa using hm)] at h
        by_cases hms : m ∈ s.stk
        · rw [if_pos hms] at h
          obtain ⟨hb, _⟩ := some_pair_inj h
          exact Bool.noConfusion hb
        · rw [if_neg hms] at h
          rcases ih s s' F h hsv hgood with ⟨F', hgood', hext, hmem⟩
          refine ⟨F', hgood', hext, ?_⟩
          intro x hx
          rcases List.mem_cons.mp hx with rfl | hx'
          · rcases hext with ⟨t, rfl⟩
            refine List.mem_append_left t ?_
            rw [← List.mem_toFinset, hgood.2.1, Finset.mem_sdiff]
            exact ⟨hm, hms⟩
          · exact hmem x hx'
      · rw [if_pos (by simpa using hm), visitND_zero] at h
        exact Option.noConfusion h
  | succ f ihf =>
    have hnode : ∀ (n : Node) (s s' : DState) (F : List Node),
        visitND g (f + 1) n s = some (false, s') → n ∉ s.vis → s.stk ⊆ s.vis →
        GOODF g s F → ∃ F', GOODF g s' F' ∧ (∃ t, F' = F ++ t) ∧ n ∈ F' := by
      intro n s s' F h hnv hsv hgood
      rw [visitND_succ] at h
      rcases hld : visitLD g f (adjList g n) ⟨insert n s.vis, insert n s.stk⟩
        with _ | ⟨b, s2⟩
      · rw [hld] at h
        exact Option.noConfusion h
      · rw [hld] at h
        cases b
        · obtain ⟨_, rfl⟩ := some_pair_inj h
          have hsv1 : (⟨insert n s.vis, insert n s.stk⟩ : DState).stk ⊆
              (⟨insert n s.vis, insert n s.stk⟩ : DState).vis := by
            intro x hx
            simp only [Finset.mem_insert] at hx ⊢
            rcases hx with rfl | hx
            · exact Or.inl rfl
            · exact Or.inr (hsv hx)
          have hgood1 : GOODF g ⟨insert n s.vis, insert n s.stk⟩ F := by
            refine ⟨hgood.1, ?_, hgood.2.2⟩
            rw [hgood.2.1]
            ext x
            simp only [Finset.mem_sdiff, Finset.mem_insert, not_or]
            constructor
            · rintro ⟨hx1, hx2⟩
              exact ⟨Or.inr hx1, fun hh => absurd (hh ▸ hx1) hnv, hx2⟩
            · rintro ⟨hx1, hx2, hx3⟩
              rcases hx1 with rfl | hx1
              · exact absurd rfl hx2
              · exact ⟨hx1, hx3⟩
          rcases ihf.2 (adjList g n) _ s2 F hld hsv1 hgood1 with ⟨F2, hgood2, ⟨t1, rfl⟩, hmem2⟩
          have hpost := (visitD_false_post g f).2 (adjList g n) _ s2 hld hsv1
          have hstk2 : s2.stk = insert n s.stk := hpost.1
          have hnvis2 : n ∈ s2.vis := hpost.2 (Finset.mem_insert_self n _)
          have hnF2 : n ∉ F ++ t1 := by
            intro hin
            have := (List.mem_toFinset.mpr hin)
            rw [hgood2.2.1, Finset.mem_sdiff, hstk2] at this
            exact this.2 (Finset.mem_insert_self n _)
          refine ⟨(F ++ t1) ++ [n], ⟨nodup_append_single hgood2.1 hnF2, ?_, ?_⟩,
            ⟨t1 ++ [n], by rw [List.append_assoc]⟩, List.mem_append_right _ (by simp)⟩
          · have hns : n ∉ s.stk := fun hh => hnv (hsv hh)
            show ((F ++ t1) ++ [n]).toFinset = s2.vis \ s2.stk.erase n
            rw [toFinset_append_single, hgood2.2.1, hstk2, Finset.erase_insert hns]
            ext x
            simp only [Finset.mem_insert, Finset.mem_sdiff]
            constructor
            · rintro (rfl | ⟨hx1, hx2⟩)
              · exact ⟨hnvis2, hns⟩
              · exact ⟨hx1, fun hh => hx2 (Or.inr hh)⟩
            · rintro ⟨hx1, hx2⟩
              by_cases hxn : x = n
              · exact Or.inl hxn
              · refine Or.inr ⟨hx1, ?_⟩
                intro hh
                rcases hh with rfl | hmem
                · exact hxn rfl
                · exact hx2 hmem
          · intro u hu v hv
            rcases List.mem_append.mp hu with hu' | hu'
            · rcases hgood2.2.2 u hu' v hv with ⟨hv1, hv2⟩
              refine ⟨List.mem_append_left _ hv1, ?_⟩
              rw [idxOf_append_of_mem hv1, idxOf_append_of_mem hu']
              exact hv2
            · rw [List.mem_singleton] at hu'
              subst hu'
              have hvF2 : v ∈ F ++ t1 := hmem2 v hv
              refine ⟨List.mem_append_left _ hvF2, ?_⟩
              rw [idxOf_append_of_mem hvF2, idxOf_append_self hnF2]
              exact idxOf_lt_length hvF2
        · obtain ⟨hb, _⟩ := some_pair_inj h
          exact Bool.noConfusion hb
    refine ⟨hnode, ?_⟩
    intro l
    induction l with
    | nil =>
      intro s s' F h _ hgood
      rw [visitLD_nil] at h
      obtain ⟨_, rfl⟩ := some_pair_inj h
      exact ⟨F, hgood, ⟨[], by rw [List.append_nil]⟩, by intro m hm; cases hm⟩
    | cons m r ih =>
      intro s s' F h hsv hgood
      rw [visitLD_cons] at h
      by_cases hm : m ∈ s.vis
      · rw [if_neg (by simpa using hm)] at h
        by_cases hms : m ∈ s.stk
        · rw [if_pos hms] at h
          obtain ⟨hb, _⟩ := some_pair_inj h
          exact Bool.noConfusion hb
        · rw [if_neg hms] at h
          rcases ih s s' F h hsv hgood with ⟨F', hgood', hext, hmem⟩
          refine ⟨F', hgood', hext, ?_⟩
          intro x hx
          rcases List.mem_cons.mp hx with rfl | hx'
          · rcases hext with ⟨t, rfl⟩
            refine List.mem_append_left t ?_
            rw [← List.mem_toFinset, hgood.2.1, Finset.mem_sdiff]
            exact ⟨hm, hms⟩
          · exact hmem x hx'
      · rw [if_pos (by simpa using hm)] at h
        rcases hnd2 : visitND g (f + 1) m s with _ | ⟨b, s2⟩
        · rw [hnd2] at h
          exact Option.noConfusion h
        · rw [hnd2] at h
          cases b
          · rcases hnode m s s2 F hnd2 hm hsv hgood with ⟨F2, hgood2, ⟨t1, rfl⟩, hmF2⟩
            have hpost := (visitD_false_post g (f + 1)).1 m s s2 hnd2
              (fun hh => hm (hsv hh)) hsv
            rcases ih s2 s' (F ++ t1) h
              (by rw [hpost.1]; intro x hx; exact hpost.2.1 (hsv hx)) hgood2
              with ⟨F3, hgood3, ⟨t2, rfl⟩, hmem3⟩
            refine ⟨(F ++ t1) ++ t2, hgood3, ⟨t1 ++ t2, by rw [List.append_assoc]⟩, ?_⟩
            intro x hx
            rcases List.mem_cons.mp hx with rfl | hx'
            · exact List.mem_append_left _ hmF2
            · exact hmem3 x hx'
          · obtain ⟨hb, _⟩ := some_pair_inj h
            exact Bool.noConfusion hb

/-- Any return of the inner dfs only grows the visited set. -/
lemma visitD_vis_mono (g : Graph) (f : Nat) :
    (∀ n s b s', visitND g f n s = some (b, s') → s.vis ⊆ s'.vis) ∧
    (∀ l s b s', visitLD g f l s = some (b, s') → s.vis ⊆ s'.vis) := by
  induction f with
  | zero =>
    refine ⟨fun n s b s' h => absurd h (by rw [visitND_zero]; exact Option.noConfusion), ?_⟩
    intro l
    induction l with
    | nil =>
      intro s b s' h
      rw [visitLD_nil] at h
      obtain ⟨_, rfl⟩ := some_pair_inj h
      exact fun x hx => hx
    | cons m r ih =>
      intro s b s' h
      rw [visitLD_cons] at h
      by_cases hm : m ∈ s.vis
      · rw [if_neg (by simpa using hm)] at h
        by_cases hms : m ∈ s.stk
        · rw [if_pos hms] at h
          obtain ⟨_, rfl⟩ := some_pair_inj h
          exact fun x hx => hx
        · rw [if_neg hms] at h
          exact ih s b s' h
      · rw [if_pos (by simpa using hm), visitND_zero] at h
        exact Option.noConfusion h
  | succ f ihf =>
    have hnode : ∀ n s b s', visitND g (f + 1) n s = some (b, s') → s.vis ⊆ s'.vis := by
      intro n s b s' h
      rw [visitND_succ] at h
      rcases hld : visitLD g f (adjList g n) ⟨insert n s.vis, insert n s.stk⟩
        with _ | ⟨b2, s2⟩
      · rw [hld] at h
        exact Option.noConfusion h
      · rw [hld] at h
        have hmono := ihf.2 (adjList g n) _ b2 s2 hld
        have hsub : s.vis ⊆ s2.vis := fun x hx => hmono (Finset.mem_insert_of_mem hx)
        cases b2
        · obtain ⟨_, rfl⟩ := some_pair_inj h
          exact hsub
        · obtain ⟨_, rfl⟩ := some_pair_inj h
          exact hsub
    refine ⟨hnode, ?_⟩
    intro l
    induction l with
    | nil =>
      intro s b s' h
      rw [visitLD_nil] at h
      obtain ⟨_, rfl⟩ := some_pair_inj h
      exact fun x hx => hx
    | cons m r ih =>
      intro s b s' h
      rw [visitLD_cons] at h
      by_cases hm : m ∈ s.vis
      · rw [if_neg (by simpa using hm)] at h
        by_cases hms : m ∈ s.stk
        · rw [if_pos hms] at h
          obtain ⟨_, rfl⟩ := some_pair_inj h
          exact fun x hx => hx
        · rw [if_neg hms] at h
          exact ih s b s' h
      · rw [if_pos (by simpa using hm)] at h
        rcases hnd2 : visitND g (f + 1) m s with _ | ⟨b2, s2⟩
        · rw [hnd2] at h
          exact Option.noConfusion h
        · rw [hnd2] at h
          cases b2
          · exact fun x hx => ih s2 b s' h (hnode m s false s2 hnd2 hx)
          · obtain ⟨_, rfl⟩ := some_pair_inj h
            exact hnode m s true s2 hnd2

/-- With enough fuel the inner dfs always returns. -/
lemma visitD_isSome (g : Graph) (f : Nat) :
    (∀ n s, (mentions g \ (insert n s.vis)).card < f →
      (visitND g f n s).isSome = true) ∧
    (∀ l s, (∀ m ∈ l, m ∈ mentions g) → (mentions g \ s.vis).card ≤ f →
      (visitLD g f l s).isSome = true) := by
  induction f with
  | zero =>
    refine ⟨fun n s hcard => absurd hcard (by omega), ?_⟩
    intro l
    induction l with
    | nil =>
      intro s _ _
      rw [visitLD_nil]
      rfl
    | cons m r ih =>
      intro s hl hcard
      have hm : m ∈ s.vis := by
        by_contra hmv
        have hmem : m ∈ mentions g \ s.vis := by
          simp [hl m (List.mem_cons_self m r), hmv]
        have := Finset.card_pos.mpr ⟨m, hmem⟩
        omega
      rw [visitLD_cons, if_neg (by simpa using hm)]
      by_cases hms : m ∈ s.stk
      · rw [if_pos hms]
        rfl
      · rw [if_neg hms]
        exact ih s (fun x hx => hl x (List.mem_cons_of_mem m hx)) hcard
  | succ f ihf =>
    have hnode : ∀ n s, (mentions g \ (insert n s.vis)).card < f + 1 →
        (visitND g (f + 1) n s).isSome = true := by
      intro n s hcard
      rw [visitND_succ]
      have hle : (mentions g \ (insert n s.vis)).card ≤ f := by omega
      have hld := ihf.2 (adjList g n) ⟨insert n s.vis, insert n s.stk⟩
        (adjList_subset_mentions g n) hle
      rcases hres : visitLD g f (adjList g n) ⟨insert n s.vis, insert n s.stk⟩
        with _ | ⟨b, s2⟩
      · rw [hres] at hld
        exact Bool.noConfusion hld
      · cases b <;> rfl
    refine ⟨hnode, ?_⟩
    intro l
    induction l with
    | nil =>
      intro s _ _
      rw [visitLD_nil]
      rfl
    | cons m r ih =>
      intro s hl hcard
      rw [visitLD_cons]
      by_cases hm : m ∈ s.vis
      · rw [if_neg (by simpa using hm)]
        by_cases hms : m ∈ s.stk
        · rw [if_pos hms]
          rfl
        · rw [if_neg hms]
          exact ih s (fun x hx => hl x (List.mem_cons_of_mem m hx)) hcard
      · rw [if_pos (by simpa using hm)]
        have hmem : m ∈ mentions g \ s.vis := by
          simp [hl m (List.mem_cons_self m r), hm]
        have hlt : (mentions g \ (insert m s.vis)).card <
            (mentions g \ s.vis).card := by
          apply Finset.card_lt_card
          rw [Finset.ssubset_def]
          constructor
          · intro x hx
            simp only [Finset.mem_sdiff, Finset.mem_insert, not_or] at hx ⊢
            exact ⟨hx.1, hx.2.2⟩
          · intro hsub
            have := hsub hmem
            simp at this
        have hN := hnode m s (by omega)
        rcases hnd2 : visitND g (f + 1) m s with _ | ⟨b, s2⟩
        · rw [hnd2] at hN
          exact Bool.noConfusion hN
        · cases b
          · have hmono := (visitD_vis_mono g (f + 1)).1 m s false s2 hnd2
            have hsub2 : mentions g \ s2.vis ⊆ mentions g \ s.vis :=
              Finset.sdiff_subset_sdiff (le_refl _) hmono
            exact ih s2 (fun x hx => hl x (List.mem_cons_of_mem m hx))
              (le_trans (Finset.card_le_card hsub2) hcard)
          · rfl

/-- Fresh fuel is always sufficient at a root call. -/
lemma visitND_root_isSome (g : Graph) (n : Node) (s : DState) :
    (visitND g (fuelBound g) n s).isSome = true := by
  refine (visitD_isSome g (fuelBound g)).1 n s ?_
  rw [fuelBound]
  have := Finset.card_le_card (Finset.sdiff_subset
    (s := mentions g) (t := insert n s.vis))
  omega

/-- After a `false` outer loop, there is a finish list that is closed
under edges, strictly decreasing along them, and contains every scanned
root. -/
lemma outerD_false_good (g : Graph) :
    ∀ (ks : List Node) (s : DState) (F : List Node), outerD g ks s = false →
      s.stk = ∅ → GOODF g s F →
      ∃ F', (∀ u ∈ F', ∀ v ∈ adjList g u, v ∈ F' ∧ idxOf F' v < idxOf F' u) ∧
        (∃ t, F' = F ++ t) ∧ ∀ k ∈ ks, k ∈ F' := by
  intro ks
  induction ks with
  | nil =>
    intro s F _ _ hgood
    exact ⟨F, hgood.2.2, ⟨[], by rw [List.append_nil]⟩, by intro k hk; cases hk⟩
  | cons k ks ih =>
    intro s F h hstk hgood
    rw [outerD_cons] at h
    have hsv : s.stk ⊆ s.vis := by
      rw [hstk]
      intro x hx
      cases Finset.not_mem_empty x hx
    by_cases hk : k ∈ s.vis
    · rw [if_neg (by simpa using hk)] at h
      rcases ih s F h hstk hgood with ⟨F', hclosed, ⟨t, rfl⟩, hmem⟩
      refine ⟨F ++ t, hclosed, ⟨t, rfl⟩, ?_⟩
      intro x hx
      rcases List.mem_cons.mp hx with rfl | hx'
      · refine List.mem_append_left t ?_
        rw [← List.mem_toFinset, hgood.2.1, Finset.mem_sdiff, hstk]
        exact ⟨hk, Finset.not_mem_empty x⟩
      · exact hmem x hx'
    · rw [if_pos (by simpa using hk)] at h
      rcases hnd : visitND g (fuelBound g) k s with _ | ⟨b, s2⟩
      · have := visitND_root_isSome g k s
        rw [hnd] at this
        exact Bool.noConfusion this
      · rw [hnd] at h
        cases b
        · have hpost := (visitD_false_post g (fuelBound g)).1 k s s2 hnd
            (by rw [hstk]; exact Finset.not_mem_empty k) hsv
          rcases (visitD_false_good g (fuelBound g)).1 k s s2 F hnd hk hsv hgood
            with ⟨F2, hgood2, ⟨t1, rfl⟩, hkF2⟩
          rcases ih s2 (F ++ t1) h (by rw [hpost.1, hstk]) hgood2
            with ⟨F3, hclosed3, ⟨t2, rfl⟩, hmem3⟩
          refine ⟨(F ++ t1) ++ t2, hclosed3, ⟨t1 ++ t2, by rw [List.append_assoc]⟩, ?_⟩
          intro x hx
          rcases List.mem_cons.mp hx with rfl | hx'
          · exact List.mem_append_left _ hkF2
          · exact hmem3 x hx'
        · exact Bool.noConfusion h

/-- Along any chain inside an edge-decreasing finish list, the index
strictly decreases. -/
lemma chain_desc (g : Graph) (F : List Node)
    (hclosed : ∀ u ∈ F, ∀ v ∈ adjList g u, v ∈ F ∧ idxOf F v < idxOf F u) :
    ∀ c : List Node, c.Chain' (EdgeRel g) → ∀ h e, c.head? = some h →
      c.getLast? = some e → h ∈ F →
      e ∈ F ∧ idxOf F e ≤ idxOf F h ∧ (2 ≤ c.length → idxOf F e < idxOf F h) := by
  intro c
  induction c with
  | nil =>
    intro _ h e hh _ _
    exact Option.noConfusion hh
  | cons x t ih =>
    intro hchain h e hh he hhF
    rw [List.head?_cons] at hh
    injection hh with hh
    subst hh
    rcases t with _ | ⟨y, t'⟩
    · rw [List.getLast?_singleton] at he
      injection he with he
      subst he
      exact ⟨hhF, le_refl _, by intro hlen; simp at hlen⟩
    · have hedge : EdgeRel g x y := (List.chain'_cons.mp hchain).1
      have hchain' : (y :: t').Chain' (EdgeRel g) := (List.chain'_cons.mp hchain).2
      rcases hclosed x hhF y hedge with ⟨hyF, hylt⟩
      have hlast : (y :: t').getLast? = some e := by
        rw [← he, List.getLast?_cons_cons]
      rcases ih hchain' y e rfl hlast hyF with ⟨heF, hele, _⟩
      exact ⟨heF, le_trans hele (le_of_lt hylt), fun _ => lt_of_le_of_lt hele hylt⟩

/-- If `_has_cycle_directed` answers `false`, the graph has no directed
cycle. -/
lemma hasCycleDirected_false_imp (g : Graph) (h : hasCycleDirected g = false) :
    ¬HasDirectedCycle g := by
  rintro ⟨c, hlen, hchain, hhe⟩
  have hgood0 : GOODF g ⟨∅, ∅⟩ [] := by
    refine ⟨List.nodup_nil, by simp, ?_⟩
    intro u hu
    cases hu
  rcases outerD_false_good g (keysOf g) ⟨∅, ∅⟩ [] h rfl hgood0
    with ⟨F, hclosed, _, hkeys⟩
  -- pull apart the cycle: it has a head with an outgoing edge
  rcases c with _ | ⟨a, t⟩
  · simp at hlen
  rcases t with _ | ⟨b, t'⟩
  · simp at hlen
  have hedge : EdgeRel g a b := (List.chain'_cons.mp hchain).1
  have hA : adjList g a ≠ [] := by
    intro hh
    have hmem : b ∈ adjList g a := hedge
    rw [hh] at hmem
    cases hmem
  have haK : a ∈ keysOf g := by
    rw [← hasNode_iff_mem_keys]
    exact hasNode_of_adjList_ne_nil g a hA
  have haF : a ∈ F := hkeys a haK
  have hh : (a :: b :: t').head? = some a := rfl
  have he : (a :: b :: t').getLast? =
      some ((a :: b :: t').getLast (by simp)) :=
    List.getLast?_eq_getLast _ _
  have hae : a = (a :: b :: t').getLast (by simp) := by
    rw [hh, he] at hhe
    injection hhe
  rcases chain_desc g F hclosed (a :: b :: t') hchain a _ hh he haF
    with ⟨_, _, hstrict⟩
  have hfin := hstrict (by simp)
  rw [← hae] at hfin
  exact lt_irrefl _ hfin

/-- C5: For every directed graph, `has_cycle()` returns true if and only
if the graph contains a directed cycle (a non-trivial edge chain that
returns to its first node); all components are scanned by the outer loop
and the DFS answers true exactly on a back-edge to an on-stack node. -/
theorem has_cycle_directed_correct (g : Graph) (hd : g.directed = true) :
    has_cycle g = true ↔ HasDirectedCycle g := by
  have hh : has_cycle g = hasCycleDirected g := by
    rw [has_cycle, hd]
    rfl
  rw [hh]
  constructor
  · exact hasCycleDirected_imp g
  · intro hcyc
    cases hres : hasCycleDirected g with
    | true => rfl
    | false => exact absurd hcyc (hasCycleDirected_false_imp g hres)

theorem has_cycle_directed_correct_witness :
    (⟨true, [(0, [1]), (1, [2]), (2, [0])]⟩ : Graph).directed = true ∧
      has_cycle ⟨true, [(0, [1]), (1, [2]), (2, [0])]⟩ = true :=
  ⟨rfl, (has_cycle_directed_correct ⟨true, [(0, [1]), (1, [2]), (2, [0])]⟩
    rfl).mpr ⟨[0, 1, 2, 0], by decide,
      List.chain'_cons.mpr ⟨by decide, List.chain'_cons.mpr ⟨by decide,
        List.chain'_cons.mpr ⟨by decide, List.chain'_singleton 0⟩⟩⟩,
      by decide⟩⟩

/-! ### Kahn-loop invariants (claim C2) -/

/-- Pointwise effect of one neighbour scan on the in-degree table: each
neighbour is decremented once per occurrence. -/
lemma stepNeighbors_fst_eq (l : List Node) (ind : Node → Int) (q : List Node) :
    ∀ v, (stepNeighbors l ind q).1 v = ind v - (l.count v : Int) := by
  induction l generalizing ind q with
  | nil =>
    intro v
    simp [stepNeighbors]
  | cons m t ih =>
    intro v
    have hstep : stepNeighbors (m :: t) ind q =
        stepNeighbors t (fun x => if x = m then ind m - 1 else ind x)
          (if (if m = m then ind m - 1 else ind m) = 0 then q ++ [m] else q) := rfl
    rw [hstep, ih]
    by_cases hv : v = m
    · subst hv
      rw [if_pos rfl, List.count_cons_self]
      push_cast
      ring
    · rw [if_neg hv, List.count_cons_of_ne hv]

/-- Effect of one neighbour scan on the queue: exactly the neighbours
whose in-degree was `1` before the scan are appended, in list order. -/
lemma stepNeighbors_snd_eq (l : List Node) (ind : Node → Int) (q : List Node)
    (hnd : l.Nodup) :
    (stepNeighbors l ind q).2 = q ++ l.filter (fun m => decide (ind m = 1)) := by
  induction l generalizing ind q with
  | nil => simp [stepNeighbors]
  | cons m t ih =>
    have hmt : m ∉ t := (List.nodup_cons.mp hnd).1
    have hndt : t.Nodup := (List.nodup_cons.mp hnd).2
    have hstep : stepNeighbors (m :: t) ind q =
        stepNeighbors t (fun x => if x = m then ind m - 1 else ind x)
          (if (if m = m then ind m - 1 else ind m) = 0 then q ++ [m] else q) := rfl
    rw [hstep, ih _ _ hndt]
    have hmm0 : (if m = m then ind m - 1 else ind m) = ind m - 1 := if_pos rfl
    rw [hmm0]
    have hfil : t.filter (fun x => decide ((if x = m then ind m - 1 else ind x) = 1)) =
        t.filter (fun x => decide (ind x = 1)) := by
      apply List.filter_congr
      intro x hx
      have hxm : ¬ x = m := fun hh => hmt (hh ▸ hx)
      simp [hxm]
    rw [hfil, List.filter_cons]
    by_cases hz : ind m - 1 = 0
    · have h1 : ind m = 1 := by omega
      rw [if_pos hz, if_pos (by simp [h1])]
      simp
    · have h1 : ¬ ind m = 1 := by omega
      rw [if_neg hz, if_neg (by simp [h1])]

/-- The initial in-degree table counts, node by node, the in-edges listed
over all keys. -/
lemma indeg0_eq_sum_keys (g : Graph) (hw : WFG g) (v : Node) :
    indeg0 g v = ((keysOf g).map (fun u => ((adjList g u).count v : Int))).sum := by
  have hnat : (g.adj.map Prod.snd).flatten.count v
      = ((keysOf g).map (fun u => (adjList g u).count v)).sum := by
    rw [List.count_flatten, List.map_map, keysOf, List.map_map]
    apply congrArg List.sum
    apply List.map_congr_left
    intro p hp
    show (Prod.snd p).count v = (adjList g p.1).count v
    rw [adjList_entry hw.keysNodup hp]
  show (((g.adj.map Prod.snd).flatten.count v : Nat) : Int) = _
  rw [hnat, Nat.cast_list_sum, List.map_map]
  apply congrArg List.sum
  apply List.map_congr_left
  intro u hu
  rfl

/-- Splitting the total in-degree of `v` between a duplicate-free set of
processed keys and the remaining keys. -/
lemma sum_count_split (g : Graph) (hw : WFG g) (res : List Node)
    (hnd : res.Nodup) (hsub : ∀ x ∈ res, x ∈ keysOf g) (v : Node) :
    (res.map (fun u => ((adjList g u).count v : Int))).sum +
      ∑ u ∈ (keysOf g).toFinset \ res.toFinset, ((adjList g u).count v : Int) =
      indeg0 g v := by
  rw [indeg0_eq_sum_keys g hw v]
  rw [← List.sum_toFinset _ hnd, ← List.sum_toFinset _ hw.keysNodup]
  rw [add_comm]
  exact Finset.sum_sdiff (by
    intro x hx
    rw [List.mem_toFinset] at hx ⊢
    exact hsub x hx)

/-- If the running in-degree of `v` is not positive, every in-neighbour of
`v` has already been moved to the result. -/
lemma kahn_preds {g : Graph} (hw : WFG g) {res : List Node} {ind : Node → Int}
    (hnd : res.Nodup) (hsub : ∀ x ∈ res, x ∈ keysOf g)
    (hind : ∀ w, ind w = indeg0 g w -
      (res.map (fun u => ((adjList g u).count w : Int))).sum)
    {v : Node} (hv : ind v ≤ 0) : ∀ u, v ∈ adjList g u → u ∈ res := by
  intro u hu
  by_contra hur
  have hne : adjList g u ≠ [] := fun hh => by
    rw [hh] at hu
    exact absurd hu (List.not_mem_nil v)
  have hukey : u ∈ keysOf g :=
    (hasNode_iff_mem_keys g u).mp (hw.ownerKey u hne)
  have hsplit := sum_count_split g hw res hnd hsub v
  have hindv := hind v
  have hnonneg : (0:Int) ≤ ∑ w ∈ (keysOf g).toFinset \ res.toFinset,
      ((adjList g w).count v : Int) :=
    Finset.sum_nonneg (fun w _ => Int.natCast_nonneg _)
  have hzero : ∑ w ∈ (keysOf g).toFinset \ res.toFinset,
      ((adjList g w).count v : Int) = 0 := by omega
  have humem : u ∈ (keysOf g).toFinset \ res.toFinset := by
    rw [Finset.mem_sdiff, List.mem_toFinset, List.mem_toFinset]
    exact ⟨hukey, hur⟩
  have hcnt := (Finset.sum_eq_zero_iff_of_nonneg
    (fun w _ => Int.natCast_nonneg _)).mp hzero u humem
  have hcnt0 : (adjList g u).count v = 0 := by exact_mod_cast hcnt
  rw [List.count_eq_zero] at hcnt0
  exact hcnt0 hu

/-- The Kahn loop invariant: the result and queue are jointly
duplicate-free keys, the table records in-degrees restricted to sources
outside the result, a key has been seen exactly when its count is no
longer positive, and the result is ordered after its in-neighbours. -/
def KINV (g : Graph) (q : List Node) (ind : Node → Int) (res : List Node) : Prop :=
  (res ++ q).Nodup ∧
  (∀ x ∈ res ++ q, x ∈ keysOf g) ∧
  (∀ v, ind v = indeg0 g v -
    (res.map (fun u => ((adjList g u).count v : Int))).sum) ∧
  (∀ v, v ∈ keysOf g → (v ∈ res ++ q ↔ ind v ≤ 0)) ∧
  (∀ v ∈ res, ∀ u, v ∈ adjList g u → u ∈ res ∧ idxOf res u < idxOf res v)

/-- What survives of the invariant once the loop has drained the queue. -/
def KPOST (g : Graph) (r : List Node) : Prop :=
  r.Nodup ∧ (∀ x ∈ r, x ∈ keysOf g) ∧
  (∀ v ∈ r, ∀ u, v ∈ adjList g u → u ∈ r ∧ idxOf r u < idxOf r v) ∧
  (∀ v ∈ keysOf g, v ∉ r → ∃ u, u ∈ keysOf g ∧ u ∉ r ∧ v ∈ adjList g u)

/-- The invariant holds before the first iteration. -/
lemma kahn_init (g : Graph) (hw : WFG g) :
    KINV g ((keysOf g).filter (fun v => indeg0 g v == 0)) (indeg0 g) [] := by
  refine ⟨?_, ?_, ?_, ?_, ?_⟩
  · rw [List.nil_append]
    exact hw.keysNodup.filter _
  · intro x hx
    rw [List.nil_append] at hx
    exact (List.mem_filter.mp hx).1
  · intro v
    simp
  · intro v hvk
    rw [List.nil_append]
    constructor
    · intro hv
      have hb := (List.mem_filter.mp hv).2
      have h0 : indeg0 g v = 0 := by simpa using hb
      rw [h0]
    · intro hle
      have hge : (0:Int) ≤ indeg0 g v := Int.natCast_nonneg _
      have h0 : indeg0 g v = 0 := le_antisymm hle hge
      exact List.mem_filter.mpr ⟨hvk, by simp [h0]⟩
  · intro v hv
    exact absurd hv (List.not_mem_nil v)

/-- One dequeue-and-scan step preserves the invariant. -/
lemma kahn_step {g : Graph} (hw : WFG g) (n : Node) (rest : List Node)
    (ind : Node → Int) (res : List Node)
    (hK : KINV g (n :: rest) ind res) :
    KINV g (stepNeighbors (adjList g n) ind rest).2
      (stepNeighbors (adjList g n) ind rest).1 (res ++ [n]) := by
  obtain ⟨h1, h2, h3, h4, h5⟩ := hK
  have hlnd : (adjList g n).Nodup := hw.listsNodup n
  have hpair : stepNeighbors (adjList g n) ind rest =
      (fun v => ind v - ((adjList g n).count v : Int),
        rest ++ (adjList g n).filter (fun m => decide (ind m = 1))) := by
    refine Prod.ext ?_ ?_
    · funext v
      exact stepNeighbors_fst_eq _ _ _ v
    · exact stepNeighbors_snd_eq (adjList g n) ind rest hlnd
  rw [hpair]
  have hnq : n ∈ res ++ n :: rest := by simp
  have hnkey : n ∈ keysOf g := h2 n hnq
  have hnle : ind n ≤ 0 := (h4 n hnkey).mp hnq
  have hresnd : res.Nodup := (List.nodup_append.mp h1).1
  have hdisj : res.Disjoint (n :: rest) := (List.nodup_append.mp h1).2.2
  have hnres : n ∉ res := fun hh => hdisj hh (List.mem_cons_self n rest)
  have hsubres : ∀ x ∈ res, x ∈ keysOf g :=
    fun x hx => h2 x (List.mem_append_left _ hx)
  have hnewq_ind : ∀ m ∈ (adjList g n).filter (fun m => decide (ind m = 1)),
      ind m = 1 := by
    intro m hm
    have hb := (List.mem_filter.mp hm).2
    simpa using hb
  have hnewq_adj : ∀ m ∈ (adjList g n).filter (fun m => decide (ind m = 1)),
      m ∈ adjList g n := fun m hm => (List.mem_filter.mp hm).1
  have hnewq_key : ∀ m ∈ (adjList g n).filter (fun m => decide (ind m = 1)),
      m ∈ keysOf g := fun m hm =>
    (hasNode_iff_mem_keys g m).mp (hw.closed n m (hnewq_adj m hm))
  have hnewq_fresh : ∀ m ∈ (adjList g n).filter (fun m => decide (ind m = 1)),
      m ∉ res ++ n :: rest := by
    intro m hm hmem
    have hle := (h4 m (hnewq_key m hm)).mp hmem
    rw [hnewq_ind m hm] at hle
    omega
  have hnewq_nd : ((adjList g n).filter (fun m => decide (ind m = 1))).Nodup :=
    hlnd.filter _
  have hcle : ∀ v, (adjList g n).count v ≤ 1 :=
    List.nodup_iff_count_le_one.mp hlnd
  have hre : (res ++ [n]) ++ (rest ++ (adjList g n).filter (fun m => decide (ind m = 1)))
      = (res ++ n :: rest) ++ (adjList g n).filter (fun m => decide (ind m = 1)) := by
    simp
  refine ⟨?_, ?_, ?_, ?_, ?_⟩
  · rw [hre, List.nodup_append]
    refine ⟨h1, hnewq_nd, ?_⟩
    intro x hx hx2
    exact hnewq_fresh x hx2 hx
  · intro x hx
    rw [hre] at hx
    rcases List.mem_append.mp hx with hx | hx
    · exact h2 x hx
    · exact hnewq_key x hx
  · intro v
    simp only [List.map_append, List.sum_append, List.map_cons, List.map_nil,
      List.sum_cons, List.sum_nil]
    rw [h3 v]
    ring
  · intro v hvkey
    show v ∈ _ ↔ ind v - ((adjList g n).count v : Int) ≤ 0
    constructor
    · intro hv
      by_cases hvold : v ∈ res ++ n :: rest
      · have hle := (h4 v hvkey).mp hvold
        have hc0 : (0:Int) ≤ ((adjList g n).count v : Int) := Int.natCast_nonneg _
        omega
      · have hv' : v ∈ (adjList g n).filter (fun m => decide (ind m = 1)) := by
          rcases List.mem_append.mp hv with hv2 | hv2
          · rcases List.mem_append.mp hv2 with hv3 | hv3
            · exact absurd (List.mem_append_left _ hv3) hvold
            · rw [List.mem_singleton] at hv3
              exact absurd (hv3 ▸ hnq) hvold
          · rcases List.mem_append.mp hv2 with hv3 | hv3
            · exact absurd (List.mem_append_right _ (List.mem_cons_of_mem n hv3)) hvold
            · exact hv3
        have h1v := hnewq_ind v hv'
        have hcge : 0 < (adjList g n).count v :=
          List.count_pos_iff.mpr (hnewq_adj v hv')
        have hcge2 : (1:Int) ≤ ((adjList g n).count v : Int) := by exact_mod_cast hcge
        omega
    · intro hle
      by_cases hvold : v ∈ res ++ n :: rest
      · rcases List.mem_append.mp hvold with hv | hv
        · exact List.mem_append_left _ (List.mem_append_left _ hv)
        · rcases List.mem_cons.mp hv with rfl | hv
          · exact List.mem_append_left _
              (List.mem_append_right _ (List.mem_singleton_self _))
          · exact List.mem_append_right _ (List.mem_append_left _ hv)
      · have hpos : ¬ ind v ≤ 0 := fun hh => hvold ((h4 v hvkey).mpr hh)
        have hc1 : (adjList g n).count v ≤ 1 := hcle v
        have hcge : 1 ≤ (adjList g n).count v := by
          by_contra hh
          push_neg at hh
          have hc0 : (adjList g n).count v = 0 := by omega
          rw [hc0] at hle
          simp at hle
          omega
        have hvadj : v ∈ adjList g n := List.count_pos_iff.mp (by omega)
        have hind1 : ind v = 1 := by
          have hcle2 : ((adjList g n).count v : Int) ≤ 1 := by exact_mod_cast hc1
          have hcge2 : (1:Int) ≤ ((adjList g n).count v : Int) := by exact_mod_cast hcge
          omega
        have hmemf : v ∈ (adjList g n).filter (fun m => decide (ind m = 1)) :=
          List.mem_filter.mpr ⟨hvadj, by simp [hind1]⟩
        exact List.mem_append_right _ (List.mem_append_right _ hmemf)
  · intro v hv u hedge
    rcases List.mem_append.mp hv with hv | hv
    · rcases h5 v hv u hedge with ⟨hu, hidx⟩
      refine ⟨List.mem_append_left _ hu, ?_⟩
      rw [idxOf_append_of_mem hu, idxOf_append_of_mem hv]
      exact hidx
    · rw [List.mem_singleton] at hv
      subst hv
      have hu : u ∈ res := kahn_preds hw hresnd hsubres h3 hnle u hedge
      refine ⟨List.mem_append_left _ hu, ?_⟩
      rw [idxOf_append_of_mem hu, idxOf_append_self hnres]
      exact idxOf_lt_length hu

/-- Once the queue is empty, the invariant yields the final properties of
the result list. -/
lemma kahn_final {g : Graph} (hw : WFG g) {ind : Node → Int} {res : List Node}
    (hK : KINV g [] ind res) : KPOST g res := by
  obtain ⟨h1, h2, h3, h4, h5⟩ := hK
  simp only [List.append_nil] at h1 h2 h4
  refine ⟨h1, h2, h5, ?_⟩
  intro v hvk hvr
  have hpos : ¬ ind v ≤ 0 := fun hle => hvr ((h4 v hvk).mpr hle)
  have hsplit := sum_count_split g hw res h1 h2 v
  have hindv := h3 v
  by_contra hnone
  push_neg at hnone
  have hzero : ∑ u ∈ (keysOf g).toFinset \ res.toFinset,
      ((adjList g u).count v : Int) = 0 := by
    apply Finset.sum_eq_zero
    intro u hu
    rw [Finset.mem_sdiff, List.mem_toFinset, List.mem_toFinset] at hu
    have hnot : v ∉ adjList g u := hnone u hu.1 hu.2
    rw [List.count_eq_zero.mpr hnot]
    rfl
  omega

/-- Running the Kahn loop from any state satisfying the invariant
produces a result with the final properties. -/
lemma kahnLoop_post (g : Graph) (hw : WFG g) :
    ∀ (W : Nat) (q : List Node) (ind : Node → Int) (res : List Node),
      kahnWeight g ind ≤ W → KINV g q ind res →
      KPOST g (kahnLoop g q ind res) := by
  intro W
  induction W using Nat.strong_induction_on with
  | _ W ihW =>
    intro q
    induction q with
    | nil =>
      intro ind res _ hK
      rw [kahnLoop_nil]
      exact kahn_final hw hK
    | cons n rest ih =>
      intro ind res hW hK
      rw [kahnLoop_cons]
      have hstep := kahn_step hw n rest ind res hK
      have hlnd : (adjList g n).Nodup := hw.listsNodup n
      have hsnd := stepNeighbors_snd_eq (adjList g n) ind rest hlnd
      by_cases hemp : (adjList g n).filter (fun m => decide (ind m = 1)) = []
      · have hq : (stepNeighbors (adjList g n) ind rest).2 = rest := by
          rw [hsnd, hemp, List.append_nil]
        rw [hq]
        rw [hq] at hstep
        refine ih _ _ ?_ hstep
        exact le_trans
          (kahnWeight_mono g _ _ (stepNeighbors_fst_le (adjList g n) ind rest)) hW
      · have hne : (stepNeighbors (adjList g n) ind rest).2 ≠ rest := by
          rw [hsnd]
          intro hh
          have hlen := congrArg List.length hh
          rw [List.length_append] at hlen
          have hl0 : ((adjList g n).filter (fun m => decide (ind m = 1))).length = 0 := by
            omega
          exact hemp (List.length_eq_zero.mp hl0)
        have hlt := stepNeighbors_snd_lt g (adjList g n) ind rest
          (adjList_subset_mentions g n) hne
        exact ihW (kahnWeight g (stepNeighbors (adjList g n) ind rest).1)
          (lt_of_lt_of_le hlt hW) _ _ _ (le_refl _) hstep

/-- The reversed orbit `[F^[k] x, …, F x, x]` of a predecessor function;
used to extract a cycle from the keys a stalled Kahn loop leaves behind. -/
def descList (F : Node → Node) (x : Node) : Nat → List Node
  | 0 => [x]
  | k + 1 => F^[k + 1] x :: descList F x k

lemma descList_length (F : Node → Node) (x : Node) :
    ∀ k, (descList F x k).length = k + 1
  | 0 => rfl
  | k + 1 => by
    show (F^[k + 1] x :: descList F x k).length = k + 2
    rw [List.length_cons, descList_length F x k]

lemma descList_head (F : Node → Node) (x : Node) (k : Nat) :
    (descList F x k).head? = some (F^[k] x) := by
  cases k with
  | zero => rfl
  | succ k => rfl

lemma descList_getLast (F : Node → Node) (x : Node) :
    ∀ k, (descList F x k).getLast? = some x
  | 0 => rfl
  | k + 1 => by
    show (F^[k + 1] x :: descList F x k).getLast? = some x
    cases k with
    | zero => rfl
    | succ k' =>
      show (F^[k' + 1 + 1] x :: F^[k' + 1] x :: descList F x k').getLast? = some x
      rw [List.getLast?_cons_cons]
      exact descList_getLast F x (k' + 1)

lemma descList_orbit (F : Node → Node) (M : Finset Node)
    (hMF : ∀ v ∈ M, F v ∈ M) (x : Node) (hx : x ∈ M) :
    ∀ k, F^[k] x ∈ M := by
  intro k
  induction k with
  | zero => exact hx
  | succ k ih =>
    rw [Function.iterate_succ_apply']
    exact hMF _ ih

lemma descList_chain (g : Graph) (F : Node → Node) (M : Finset Node)
    (hMF : ∀ v ∈ M, F v ∈ M) (hME : ∀ v ∈ M, v ∈ adjList g (F v))
    (x : Node) (hx : x ∈ M) : ∀ k, (descList F x k).Chain' (EdgeRel g)
  | 0 => List.chain'_singleton x
  | k + 1 => by
    show (F^[k + 1] x :: descList F x k).Chain' (EdgeRel g)
    rw [List.chain'_cons']
    refine ⟨?_, descList_chain g F M hMF hME x hx k⟩
    intro b hb
    rw [descList_head] at hb
    have hb2 : (some (F^[k] x) : Option Node) = some b := hb
    injection hb2 with hb3
    subst hb3
    rw [Function.iterate_succ_apply']
    exact hME _ (descList_orbit F M hMF x hx k)

/-- A repeated point on the orbit of a predecessor function yields a
directed cycle. -/
lemma cycle_from_repeat (g : Graph) (F : Node → Node) (M : Finset Node)
    (hMF : ∀ v ∈ M, F v ∈ M) (hME : ∀ v ∈ M, v ∈ adjList g (F v))
    (v0 : Node) (hv0 : v0 ∈ M) (a b : Nat) (hab : a < b)
    (heq : F^[a] v0 = F^[b] v0) : HasDirectedCycle g := by
  refine ⟨descList F (F^[a] v0) (b - a), ?_, ?_, ?_⟩
  · rw [descList_length]
    omega
  · exact descList_chain g F M hMF hME (F^[a] v0)
      (descList_orbit F M hMF v0 hv0 a) (b - a)
  · rw [descList_head, descList_getLast]
    rw [← Function.iterate_add_apply]
    rw [show b - a + a = b from by omega]
    rw [← heq]

/-- A nonempty node set in which every node has an in-neighbour inside
the set yields a directed cycle. -/
lemma cycle_of_closed_preds (g : Graph) (M : Finset Node) (hne : M.Nonempty)
    (h : ∀ v ∈ M, ∃ u ∈ M, v ∈ adjList g u) : HasDirectedCycle g := by
  classical
  obtain ⟨v0, hv0⟩ := hne
  have hex : ∀ v, ∃ u, v ∈ M → (u ∈ M ∧ v ∈ adjList g u) := by
    intro v
    by_cases hv : v ∈ M
    · rcases h v hv with ⟨u, hu, he⟩
      exact ⟨u, fun _ => ⟨hu, he⟩⟩
    · exact ⟨v0, fun hc => absurd hc hv⟩
  choose F hF using hex
  have hMF : ∀ v ∈ M, F v ∈ M := fun v hv => (hF v hv).1
  have hME : ∀ v ∈ M, v ∈ adjList g (F v) := fun v hv => (hF v hv).2
  have horb : ∀ k, F^[k] v0 ∈ M := descList_orbit F M hMF v0 hv0
  obtain ⟨i, j, hij, heq⟩ :=
    Fintype.exists_ne_map_eq_of_card_lt
      (fun i : Fin (M.card + 1) => (⟨F^[i.1] v0, horb i.1⟩ : ↥M))
      (by rw [Fintype.card_coe, Fintype.card_fin]; omega)
  have heqv : F^[i.1] v0 = F^[j.1] v0 := congrArg Subtype.val heq
  have hijv : i.1 ≠ j.1 := fun hh => hij (Fin.ext hh)
  rcases Nat.lt_or_ge i.1 j.1 with hlt | hge
  · exact cycle_from_repeat g F M hMF hME v0 hv0 i.1 j.1 hlt heqv
  · have hlt2 : j.1 < i.1 := lt_of_le_of_ne hge (Ne.symm hijv)
    exact cycle_from_repeat g F M hMF hME v0 hv0 j.1 i.1 hlt2 heqv.symm

/-- C2: for every reachable directed graph, `topological_sort()` returns
`none` when the graph has a directed cycle, and otherwise returns a list
holding every node exactly once in which, for every edge `(u, v)`, `u`
precedes `v`. -/
theorem topological_sort_correct (g : Graph) (hb : Built g)
    (hd : g.directed = true) :
    (HasDirectedCycle g → topological_sort g = none) ∧
    (¬HasDirectedCycle g →
      ∃ res, topological_sort g = some res ∧ res.Nodup ∧
        (∀ n, n ∈ res ↔ hasNode g n = true) ∧
        (∀ u v, EdgeRel g u v → idxOf res u < idxOf res v)) := by
  have hw := wfg_of_built hb
  have hcycles : has_cycle g = hasCycleDirected g := by
    rw [has_cycle, hd]
    rfl
  constructor
  · intro hcyc
    have hc : has_cycle g = true := by
      rw [hcycles]
      cases hres : hasCycleDirected g with
      | true => rfl
      | false => exact absurd hcyc (hasCycleDirected_false_imp g hres)
    rw [topological_sort, hd, hc]
    rfl
  · intro hacyc
    have hc : has_cycle g = false := by
      rw [hcycles]
      cases hres : hasCycleDirected g with
      | false => rfl
      | true => exact absurd (hasCycleDirected_imp g hres) hacyc
    have hpost := kahnLoop_post g hw (kahnWeight g (indeg0 g))
      ((keysOf g).filter (fun v => indeg0 g v == 0)) (indeg0 g) []
      (le_refl _) (kahn_init g hw)
    obtain ⟨hnd, hmem, horder, hmiss⟩ := hpost
    set r := kahnLoop g ((keysOf g).filter (fun v => indeg0 g v == 0))
      (indeg0 g) [] with hr
    have hall : ∀ v ∈ keysOf g, v ∈ r := by
      by_contra hnot
      push_neg at hnot
      obtain ⟨v0, hv0k, hv0r⟩ := hnot
      have hneM : ((keysOf g).toFinset \ r.toFinset).Nonempty := by
        refine ⟨v0, ?_⟩
        rw [Finset.mem_sdiff, List.mem_toFinset, List.mem_toFinset]
        exact ⟨hv0k, hv0r⟩
      have hpreds : ∀ v ∈ (keysOf g).toFinset \ r.toFinset,
          ∃ u ∈ (keysOf g).toFinset \ r.toFinset, v ∈ adjList g u := by
        intro v hv
        rw [Finset.mem_sdiff, List.mem_toFinset, List.mem_toFinset] at hv
        rcases hmiss v hv.1 hv.2 with ⟨u, hu1, hu2, hu3⟩
        refine ⟨u, ?_, hu3⟩
        rw [Finset.mem_sdiff, List.mem_toFinset, List.mem_toFinset]
        exact ⟨hu1, hu2⟩
      exact hacyc (cycle_of_closed_preds g _ hneM hpreds)
    have htof : r.toFinset = (keysOf g).toFinset := by
      apply Finset.Subset.antisymm
      · intro x hx
        rw [List.mem_toFinset] at hx ⊢
        exact hmem x hx
      · intro x hx
        rw [List.mem_toFinset] at hx ⊢
        exact hall x hx
    have hlen : r.length = g.adj.length := by
      calc r.length = r.toFinset.card := (List.toFinset_card_of_nodup hnd).symm
        _ = (keysOf g).toFinset.card := by rw [htof]
        _ = (keysOf g).length := List.toFinset_card_of_nodup hw.keysNodup
        _ = g.adj.length := keysOf_length g
    refine ⟨r, ?_, hnd, ?_, ?_⟩
    · rw [topological_sort, hd, hc]
      rw [if_neg (by simp)]
      show (if r.length ≠ g.adj.length then none else some r) = some r
      rw [if_neg (not_not_intro hlen)]
    · intro n
      constructor
      · intro hn
        rw [hasNode_iff_mem_keys]
        exact hmem n hn
      · intro hn
        exact hall n ((hasNode_iff_mem_keys g n).mp hn)
    · intro u v hedge
      have hvkey : v ∈ keysOf g :=
        (hasNode_iff_mem_keys g v).mp (hw.closed u v hedge)
      have hvr : v ∈ r := hall v hvkey
      exact (horder v hvr u hedge).2

theorem topological_sort_correct_witness :
    ∃ res,
      topological_sort
          (add_edge (add_edge (add_edge (add_edge ⟨true, []⟩ 0 1) 0 2) 1 3) 2 3) =
        some res ∧
      res.Nodup ∧
      (∀ n, n ∈ res ↔
        hasNode (add_edge (add_edge (add_edge (add_edge ⟨true, []⟩ 0 1) 0 2) 1 3) 2 3)
          n = true) ∧
      (∀ u v,
        EdgeRel (add_edge (add_edge (add_edge (add_edge ⟨true, []⟩ 0 1) 0 2) 1 3) 2 3)
          u v → idxOf res u < idxOf res v) :=
  (topological_sort_correct _
    (Built.edge 2 3 (Built.edge 1 3 (Built.edge 0 2 (Built.edge 0 1 (Built.base true)))))
    (by decide)).2
    (hasCycleDirected_false_imp _ (by
      simp [hasCycleDirected, outerD, visitND, visitLD, adjList, List.find?, keysOf,
        fuelBound, mentions, add_edge, add_node, appendNbr, hasNode]))

/-! ### Shortest-path correctness (claim C1) -/

lemma spLoop_nil (g : Graph) (e : Node) (vis : Finset Node) :
    spLoop g e [] vis = none := by
  rw [spLoop]

lemma spLoop_cons (g : Graph) (e n : Node) (p : List Node)
    (rest : List (Node × List Node)) (vis : Finset Node) :
    spLoop g e ((n, p) :: rest) vis =
      if n = e then some p
      else spLoop g e (rest ++ spAppend g n p vis) (insert n vis) := by
  rw [spLoop]

lemma mem_spAppend {g : Graph} {n : Node} {p : List Node} {vis : Finset Node}
    {en : Node × List Node} :
    en ∈ spAppend g n p vis ↔
      ∃ m, m ∈ adjList g n ∧ m ∉ insert n vis ∧ en = (m, p ++ [m]) := by
  simp only [spAppend, List.mem_map, List.mem_filter, decide_eq_true_eq]
  constructor
  · rintro ⟨m, ⟨h1, h2⟩, rfl⟩
    exact ⟨m, h1, h2, rfl⟩
  · rintro ⟨m, h1, h2, rfl⟩
    exact ⟨m, ⟨h1, h2⟩, rfl⟩

/-- Extending a path by one adjacent node. -/
lemma pathFromTo_extend {g : Graph} {s n m : Node} {p : List Node}
    (hp : PathFromTo g s n p) (hedge : m ∈ adjList g n) :
    PathFromTo g s m (p ++ [m]) := by
  obtain ⟨⟨hne, hchain⟩, hhead, hlast⟩ := hp
  refine ⟨⟨by simp, chain'_append_single hchain hlast hedge⟩, ?_, List.getLast?_concat p⟩
  rcases p with _ | ⟨a, t⟩
  · exact absurd rfl hne
  · simpa using hhead

/-- Splitting a list at the last occurrence of an element. -/
lemma exists_last_split {x : Node} :
    ∀ {l : List Node}, x ∈ l → ∃ A B, l = A ++ x :: B ∧ x ∉ B := by
  intro l
  induction l with
  | nil => intro h; exact absurd h (List.not_mem_nil x)
  | cons a t ih =>
    intro h
    by_cases hxt : x ∈ t
    · rcases ih hxt with ⟨A, B, hAB, hB⟩
      exact ⟨a :: A, B, by rw [hAB]; rfl, hB⟩
    · rcases List.mem_cons.mp h with rfl | h2
      · exact ⟨[], t, rfl, hxt⟩
      · exact absurd h2 hxt

/-- The BFS queue always consists of a block of paths of some length `k`
followed by a block of paths of length `k + 1`. -/
def SPQ2 (q : List (Node × List Node)) : Prop :=
  ∃ (k : Nat) (q₁ q₂ : List (Node × List Node)), q = q₁ ++ q₂ ∧
    (∀ en ∈ q₁, en.2.length = k) ∧ (∀ en ∈ q₂, en.2.length = k + 1)

/-- The popped entry carries a path no longer than any queued path. -/
lemma spq2_head_min {n : Node} {p : List Node} {rest : List (Node × List Node)}
    (h : SPQ2 ((n, p) :: rest)) :
    ∀ en ∈ (n, p) :: rest, p.length ≤ en.2.length := by
  obtain ⟨k, q₁, q₂, hq, h1, h2⟩ := h
  intro en hen
  cases q₁ with
  | nil =>
    rw [List.nil_append] at hq
    have hp : p.length = k + 1 := h2 (n, p) (by rw [← hq]; exact List.mem_cons_self _ _)
    have hen2 : en.2.length = k + 1 := h2 en (by rw [← hq]; exact hen)
    omega
  | cons a q₁' =>
    rw [List.cons_append] at hq
    injection hq with hq1 hq2
    subst hq1
    have hp : p.length = k := h1 (n, p) (List.mem_cons_self _ _)
    rcases List.mem_cons.mp hen with rfl | hen'
    · exact le_refl _
    · rw [hq2] at hen'
      rcases List.mem_append.mp hen' with h3 | h3
      · have := h1 en (List.mem_cons_of_mem _ h3)
        omega
      · have := h2 en h3
        omega

lemma spAppend_len (g : Graph) (n : Node) (p : List Node) (vis : Finset Node) :
    ∀ en ∈ spAppend g n p vis, en.2.length = p.length + 1 := by
  intro en hen
  rcases mem_spAppend.mp hen with ⟨m, _, _, rfl⟩
  simp

lemma spq2_step (g : Graph) (n : Node) (p : List Node)
    (rest : List (Node × List Node)) (vis : Finset Node)
    (h : SPQ2 ((n, p) :: rest)) :
    SPQ2 (rest ++ spAppend g n p vis) := by
  obtain ⟨k, q₁, q₂, hq, h1, h2⟩ := h
  cases q₁ with
  | nil =>
    rw [List.nil_append] at hq
    have hp : p.length = k + 1 := h2 (n, p) (by rw [← hq]; exact List.mem_cons_self _ _)
    have hrest : ∀ en ∈ rest, en.2.length = k + 1 := by
      intro en hen
      exact h2 en (by rw [← hq]; exact List.mem_cons_of_mem _ hen)
    refine ⟨k + 1, rest, spAppend g n p vis, rfl, hrest, ?_⟩
    intro en hen
    rw [spAppend_len g n p vis en hen, hp]
  | cons a q₁' =>
    rw [List.cons_append] at hq
    injection hq with hq1 hq2
    subst hq1
    subst hq2
    have hp : p.length = k := h1 (n, p) (List.mem_cons_self _ _)
    refine ⟨k, q₁', q₂ ++ spAppend g n p vis, by rw [List.append_assoc], ?_, ?_⟩
    · intro en hen
      exact h1 en (List.mem_cons_of_mem _ hen)
    · intro en hen
      rcases List.mem_append.mp hen with h3 | h3
      · exact h2 en h3
      · rw [spAppend_len g n p vis en h3, hp]

/-- The BFS loop invariant of `shortest_path`: every queue entry carries a
path from the start to its node, the queued path lengths form a
two-length window, the target was never marked visited, and every path to
the target is dominated by some queue entry together with a
visited-avoiding continuation. -/
def SPINV (g : Graph) (s e : Node) (q : List (Node × List Node))
    (vis : Finset Node) : Prop :=
  (∀ en ∈ q, PathFromTo g s en.1 en.2) ∧
  SPQ2 q ∧
  e ∉ vis ∧
  (∀ P, PathFromTo g s e P →
    ∃ en ∈ q, ∃ Q : List Node, Q.Chain' (EdgeRel g) ∧
      Q.head? = some en.1 ∧ Q.getLast? = some e ∧
      (∀ x ∈ Q, x ∉ vis) ∧ en.2.length + Q.length ≤ P.length + 1)

/-- One dequeue step preserves the invariant (when the popped node is not
the target). -/
lemma spinv_step (g : Graph) (s e n : Node) (p : List Node)
    (rest : List (Node × List Node)) (vis : Finset Node)
    (hinv : SPINV g s e ((n, p) :: rest) vis) (hne : n ≠ e) :
    SPINV g s e (rest ++ spAppend g n p vis) (insert n vis) := by
  obtain ⟨hA, hB, hE, hC⟩ := hinv
  refine ⟨?_, spq2_step g n p rest vis hB, ?_, ?_⟩
  · intro en hen
    rcases List.mem_append.mp hen with h | h
    · exact hA en (List.mem_cons_of_mem _ h)
    · rcases mem_spAppend.mp h with ⟨m, hm1, _, rfl⟩
      exact pathFromTo_extend (hA (n, p) (List.mem_cons_self _ _)) hm1
  · rw [Finset.mem_insert]
    rintro (rfl | hh)
    · exact hne rfl
    · exact hE hh
  · intro P hP
    rcases hC P hP with ⟨en, hen, Q, hchain, hhead, hlast, havoid, hbound⟩
    have hheadmin := spq2_head_min hB
    by_cases hnQ : n ∈ Q
    · rcases exists_last_split hnQ with ⟨A, B, hsplit, hnB⟩
      rcases B with _ | ⟨m2, B'⟩
      · rw [hsplit, List.getLast?_concat] at hlast
        injection hlast with hlast2
        exact absurd hlast2 hne
      · have hsfx : (n :: m2 :: B') <:+ Q := by
          rw [hsplit]
          exact List.suffix_append A (n :: m2 :: B')
        have hsuffix : (n :: m2 :: B').Chain' (EdgeRel g) := hchain.suffix hsfx
        have hedge : EdgeRel g n m2 := (List.chain'_cons.mp hsuffix).1
        have hm2Q : m2 ∈ Q := by
          rw [hsplit]
          exact List.mem_append_right _ (List.mem_cons_of_mem _ (List.mem_cons_self _ _))
        have hm2vis : m2 ∉ vis := havoid m2 hm2Q
        have hm2n : m2 ≠ n := fun hh => hnB (hh ▸ List.mem_cons_self m2 B')
        have hm2ins : m2 ∉ insert n vis := by
          rw [Finset.mem_insert]
          rintro (hh | hh)
          · exact hm2n hh
          · exact hm2vis hh
        have hQlen : Q.length = A.length + B'.length + 2 := by
          rw [hsplit]
          simp only [List.length_append, List.length_cons]
          omega
        refine ⟨(m2, p ++ [m2]), ?_, m2 :: B', (List.chain'_cons.mp hsuffix).2,
          rfl, ?_, ?_, ?_⟩
        · exact List.mem_append_right _ (mem_spAppend.mpr ⟨m2, hedge, hm2ins, rfl⟩)
        · rw [hsplit] at hlast
          rw [List.getLast?_append_of_ne_nil A (by simp)] at hlast
          rw [List.getLast?_cons_cons] at hlast
          exact hlast
        · intro x hx
          have hxQ : x ∈ Q := by
            rw [hsplit]
            exact List.mem_append_right _ (List.mem_cons_of_mem _ hx)
          have hxn : x ≠ n := fun hh => hnB (hh ▸ hx)
          rw [Finset.mem_insert]
          rintro (hh | hh)
          · exact hxn hh
          · exact havoid x hxQ hh
        · have hmin : p.length ≤ en.2.length := hheadmin en hen
          simp only [List.length_append, List.length_cons, List.length_nil]
          omega
    · have hen1Q : en.1 ∈ Q := List.mem_of_mem_head? (by rw [hhead]; rfl)
      have hne2 : en ≠ (n, p) := by
        intro hh
        rw [hh] at hen1Q
        exact hnQ hen1Q
      have henr : en ∈ rest := by
        rcases List.mem_cons.mp hen with hh | hh
        · exact absurd hh hne2
        · exact hh
      refine ⟨en, List.mem_append_left _ henr, Q, hchain, hhead, hlast, ?_, hbound⟩
      intro x hx
      rw [Finset.mem_insert]
      rintro (rfl | hh)
      · exact hnQ hx
      · exact havoid x hx hh

/-- From any state satisfying the invariant, the loop answers `some` only
with a minimum-length path to the target, and answers `none` only when no
path to the target exists. -/
lemma spLoop_correct (g : Graph) (s e : Node) :
    ∀ (W1 W2 : Nat) (q : List (Node × List Node)) (vis : Finset Node),
      spMeasure1 g q vis ≤ W1 → spMeasure2 vis q ≤ W2 → SPINV g s e q vis →
      (∀ p, spLoop g e q vis = some p →
        PathFromTo g s e p ∧ ∀ P, PathFromTo g s e P → p.length ≤ P.length) ∧
      (spLoop g e q vis = none → ¬ ∃ P, PathFromTo g s e P) := by
  intro W1
  induction W1 using Nat.strong_induction_on with
  | _ W1 ih1 =>
    intro W2
    induction W2 using Nat.strong_induction_on with
    | _ W2 ih2 =>
      intro q vis hm1 hm2 hinv
      rcases q with _ | ⟨⟨n, p⟩, rest⟩
      · refine ⟨?_, ?_⟩
        · intro p hp
          rw [spLoop_nil] at hp
          exact Option.noConfusion hp
        · rintro _ ⟨P, hP⟩
          rcases hinv.2.2.2 P hP with ⟨en, hen, _⟩
          exact absurd hen (List.not_mem_nil en)
      · by_cases hne : n = e
        · subst hne
          refine ⟨?_, ?_⟩
          · intro p' hp'
            rw [spLoop_cons, if_pos rfl] at hp'
            injection hp' with hp2
            subst hp2
            refine ⟨hinv.1 (n, p) (List.mem_cons_self _ _), ?_⟩
            intro P hP
            rcases hinv.2.2.2 P hP with ⟨en, hen, Q, _, hhead, _, _, hbound⟩
            have hmin := spq2_head_min hinv.2.1 en hen
            have hQlen : 1 ≤ Q.length := by
              rcases Q with _ | ⟨_, _⟩
              · exact absurd hhead (Option.noConfusion)
              · simp
            omega
          · intro hnone
            rw [spLoop_cons, if_pos rfl] at hnone
            exact Option.noConfusion hnone
        · have hstep := spinv_step g s e n p rest vis hinv hne
          rw [spLoop_cons, if_neg hne]
          by_cases hn : n ∈ vis
          · exact ih2 (spMeasure2 (insert n vis) (rest ++ spAppend g n p vis))
              (lt_of_lt_of_le (spMeasure2_lt g n p rest vis hn) hm2)
              (rest ++ spAppend g n p vis) (insert n vis)
              (le_trans (spMeasure1_le g n p rest vis) hm1) (le_refl _) hstep
          · exact ih1 (spMeasure1 g (rest ++ spAppend g n p vis) (insert n vis))
              (lt_of_lt_of_le (spMeasure1_lt g n p rest vis hn) hm1)
              (spMeasure2 (insert n vis) (rest ++ spAppend g n p vis))
              (rest ++ spAppend g n p vis) (insert n vis)
              (le_refl _) (le_refl _) hstep

/-- C1: `shortest_path(start, end)` returns `none` when either endpoint
is unknown; otherwise it returns a minimum-hop-count path from start to
end (inclusive, consecutive nodes adjacent) when one exists, and `none`
when the end is unreachable from the start. -/
theorem shortest_path_correct (g : Graph) (s e : Node) :
    ((hasNode g s = false ∨ hasNode g e = false) → shortest_path g s e = none) ∧
    (hasNode g s = true → hasNode g e = true →
      ((∃ P, PathFromTo g s e P) →
        ∃ p, shortest_path g s e = some p ∧ PathFromTo g s e p ∧
          ∀ P, PathFromTo g s e P → p.length ≤ P.length) ∧
      ((¬ ∃ P, PathFromTo g s e P) → shortest_path g s e = none)) := by
  constructor
  · intro h
    rcases h with h | h
    · rw [shortest_path, h]
      simp
    · rw [shortest_path, h]
      simp
  · intro hs he
    have hinit : SPINV g s e [(s, [s])] ∅ := by
      refine ⟨?_, ?_, Finset.not_mem_empty e, ?_⟩
      · intro en hen
        rcases List.mem_cons.mp hen with rfl | hh
        · exact ⟨⟨by simp, List.chain'_singleton s⟩, rfl, rfl⟩
        · exact absurd hh (List.not_mem_nil en)
      · refine ⟨0, [], [(s, [s])], rfl, fun en hen => absurd hen (List.not_mem_nil en), ?_⟩
        intro en hen
        rcases List.mem_cons.mp hen with rfl | hh
        · rfl
        · exact absurd hh (List.not_mem_nil en)
      · intro P hP
        refine ⟨(s, [s]), List.mem_cons_self _ _, P, hP.1.2, hP.2.1, hP.2.2,
          fun x _ => Finset.not_mem_empty x, ?_⟩
        simp only [List.length_cons, List.length_nil]
        omega
    have hguard : shortest_path g s e = spLoop g e [(s, [s])] ∅ := by
      rw [shortest_path, hs, he]
      rfl
    have hmain := spLoop_correct g s e (spMeasure1 g [(s, [s])] ∅)
      (spMeasure2 ∅ [(s, [s])]) [(s, [s])] ∅ (le_refl _) (le_refl _) hinit
    constructor
    · intro hreach
      rcases hres : spLoop g e [(s, [s])] ∅ with _ | p
      · exact absurd hreach (hmain.2 hres)
      · rcases hmain.1 p hres with ⟨hpath, hmin⟩
        exact ⟨p, by rw [hguard, hres], hpath, hmin⟩
    · intro hunreach
      rcases hres : spLoop g e [(s, [s])] ∅ with _ | p
      · rw [hguard, hres]
      · rcases hmain.1 p hres with ⟨hpath, _⟩
        exact absurd ⟨p, hpath⟩ hunreach

theorem shortest_path_correct_witness :
    (∃ p, shortest_path ⟨true, [(0, [1, 2]), (1, [2]), (2, [])]⟩ 0 2 = some p ∧
      PathFromTo ⟨true, [(0, [1, 2]), (1, [2]), (2, [])]⟩ 0 2 p ∧
      ∀ P, PathFromTo ⟨true, [(0, [1, 2]), (1, [2]), (2, [])]⟩ 0 2 P →
        p.length ≤ P.length) ∧
    shortest_path ⟨true, [(0, [1, 2]), (1, [2]), (2, [])]⟩ 0 2 = some [0, 2] :=
  ⟨((shortest_path_correct ⟨true, [(0, [1, 2]), (1, [2]), (2, [])]⟩ 0 2).2
      rfl rfl).1
      ⟨[0, 2], ⟨⟨by decide, List.chain'_cons.mpr ⟨by decide, List.chain'_singleton 2⟩⟩,
        rfl, rfl⟩⟩,
    by simp [shortest_path, spLoop, spAppend, adjList, List.find?, hasNode]⟩

end PyGraph
